import Mathlib

/-!
Verification development for the upbound/function-openai crossplane function.

The Go sources are shallowly embedded: pure Go string manipulation is
re-implemented on `List Char` (with `String` wrappers mirroring the source
signatures), the `structpb.Struct`/JSON value universe is the inductive
`Json` (numbers are modelled as integers), and the third-party codec
libraries (`sigs.k8s.io/yaml`, `protojson`, `sjson`, `gjson`) are modelled
by an executable JSON printer/parser pair: `sigs.k8s.io/yaml` accepts JSON
input (JSON is a subset of YAML, and the repository's own decoder is fed
either form), so the model serialises documents in the compact bracketed
syntax and parses exactly that syntax back, plus the "empty document is
null" rule of the real library.  External collaborators (the LLM call and
the Go `text/template` engine) are passed in as explicit function values,
mirroring the `agentInvoker` interface the source uses for its own tests.
-/

/-! ## Go string primitives on `List Char` -/

/-- Whitespace test matching `unicode.IsSpace` on the ASCII range used here. -/
def isWs (c : Char) : Bool :=
  c = ' ' || c = '\n' || c = '\t' || c = '\r'

/-- Trim characters satisfying `p` from both ends (model of `strings.Trim`-style calls). -/
def trimByChars (p : Char → Bool) (l : List Char) : List Char :=
  ((l.dropWhile p).reverse.dropWhile p).reverse

/-- Model of Go `strings.TrimSpace` on character lists. -/
def trimChars (l : List Char) : List Char :=
  trimByChars isWs l

/-- Decide whether `pat` is a leading run of `l`. -/
def isPre : List Char → List Char → Bool
  | [], _ => true
  | _ :: _, [] => false
  | a :: s, c :: cs => a = c && isPre s cs

/-- Decide whether `pat` occurs anywhere inside `l`. -/
def containsSub (pat : List Char) : List Char → Bool
  | [] => isPre pat []
  | c :: cs => isPre pat (c :: cs) || containsSub pat cs

/-- Model of Go `strings.Split` with a non-empty separator `s0 :: srest`:
scan left to right, emitting the accumulated fragment at each separator
occurrence; the `skip` counter walks over the matched separator's tail. -/
def splitAcc (s0 : Char) (srest : List Char) : Nat → List Char → List Char → List (List Char)
  | _, acc, [] => [acc.reverse]
  | 0, acc, c :: cs =>
    if isPre (s0 :: srest) (c :: cs) then
      acc.reverse :: splitAcc s0 srest srest.length [] cs
    else
      splitAcc s0 srest 0 (c :: acc) cs
  | k + 1, acc, _ :: cs => splitAcc s0 srest k acc cs

/-- Model of Go `strings.Split` (the separators used in the source are non-empty). -/
def goSplit (y sep : String) : List String :=
  match sep.data with
  | [] => [y]
  | s0 :: srest => (splitAcc s0 srest 0 [] y.data).map String.mk

/-- Model of Go `strings.TrimSpace`. -/
def goTrimSpace (s : String) : String :=
  String.mk (trimChars s.data)

/-- Model of Go `strings.TrimPrefix`: drop `p` from the front when present. -/
def trimPfx (s p : String) : String :=
  if isPre p.data s.data then String.mk (s.data.drop p.data.length) else s

/-- Model of Go `strings.TrimSuffix`: drop `p` from the back when present. -/
def trimSfx (s p : String) : String :=
  if isPre p.data.reverse s.data.reverse then
    String.mk ((s.data.reverse.drop p.data.length).reverse)
  else s

/-- Model of Go `strings.HasPrefix`. -/
def goHasPfx (s p : String) : Bool :=
  isPre p.data s.data

/-- ASCII lower-casing of one character (model of `unicode.ToLower` on the
ASCII range the resolver handles). -/
def lowerChar (c : Char) : Char :=
  if c = 'A' then 'a' else if c = 'B' then 'b' else if c = 'C' then 'c'
  else if c = 'D' then 'd' else if c = 'E' then 'e' else if c = 'F' then 'f'
  else if c = 'G' then 'g' else if c = 'H' then 'h' else if c = 'I' then 'i'
  else if c = 'J' then 'j' else if c = 'K' then 'k' else if c = 'L' then 'l'
  else if c = 'M' then 'm' else if c = 'N' then 'n' else if c = 'O' then 'o'
  else if c = 'P' then 'p' else if c = 'Q' then 'q' else if c = 'R' then 'r'
  else if c = 'S' then 's' else if c = 'T' then 't' else if c = 'U' then 'u'
  else if c = 'V' then 'v' else if c = 'W' then 'w' else if c = 'X' then 'x'
  else if c = 'Y' then 'y' else if c = 'Z' then 'z' else c

/-- Model of Go `strings.ToLower` (the inputs of interest are ASCII). -/
def goToLower (s : String) : String :=
  String.mk (s.data.map lowerChar)

/-! ## Decimal numerals (model of the number formatting shared by the JSON libraries) -/

/-- Character for a single decimal digit. -/
def digitChar : Nat → Char
  | 0 => '0' | 1 => '1' | 2 => '2' | 3 => '3' | 4 => '4'
  | 5 => '5' | 6 => '6' | 7 => '7' | 8 => '8' | _ => '9'

/-- Numeric value of a decimal digit character. -/
def digitVal (c : Char) : Nat :=
  c.toNat - 48

/-- Decimal digit test (equivalent to `Char.isDigit` on this code path). -/
def isDig (c : Char) : Bool :=
  c = '0' || c = '1' || c = '2' || c = '3' || c = '4' ||
    c = '5' || c = '6' || c = '7' || c = '8' || c = '9'

/-- Accumulator form of decimal rendering of a natural number, fuelled so
that it reduces in the kernel (any fuel above the digit count agrees). -/
def natCharsAux : Nat → Nat → List Char → List Char
  | 0, _, acc => acc
  | fuel + 1, n, acc =>
    if n < 10 then digitChar n :: acc
    else natCharsAux fuel (n / 10) (digitChar (n % 10) :: acc)

/-- Decimal rendering of a natural number. -/
def natChars (n : Nat) : List Char :=
  natCharsAux (n + 1) n []

/-- Decimal reading of a digit-character list. -/
def natFromDigits (ds : List Char) : Nat :=
  ds.foldl (fun a c => a * 10 + digitVal c) 0

/-- Rendering of an integer JSON number. -/
def numChars (n : Int) : List Char :=
  if n < 0 then '-' :: natChars n.natAbs else natChars n.toNat

/-- Split a character list into its leading run of digits and the rest. -/
def spanDigits : List Char → List Char × List Char
  | [] => ([], [])
  | c :: cs =>
    if isDig c then
      let p := spanDigits cs
      (c :: p.1, p.2)
    else ([], c :: cs)

/-! ## The JSON / `structpb` value universe -/

/-- JSON tree: the in-memory shape shared by `structpb.Struct`, `sjson` and
`gjson` in the source.  Numbers are modelled as integers. -/
inductive Json where
  | null : Json
  | bool : Bool → Json
  | num : Int → Json
  | str : String → Json
  | arr : List Json → Json
  | obj : List (String × Json) → Json

/-- A `structpb.Struct` (= `fnv1.Resource` payload) is the field list of a JSON object. -/
abbrev Resource := List (String × Json)

/-- Escape string content for the compact serialisation (quote and backslash). -/
def escChars : List Char → List Char
  | [] => []
  | c :: cs => if c = '"' || c = '\\' then '\\' :: c :: escChars cs else c :: escChars cs

mutual

/-- Compact serialisation of a JSON value (model of the text the codec
libraries exchange for a document). -/
def jsonChars : Json → List Char
  | .null => "null".data
  | .bool true => "true".data
  | .bool false => "false".data
  | .num n => numChars n
  | .str s => '"' :: (escChars s.data ++ ['"'])
  | .arr l => '[' :: (arrChars l ++ [']'])
  | .obj l => '\x7b' :: (objChars l ++ ['\x7d'])
termination_by structural j => j

/-- Comma-separated serialisation of array elements. -/
def arrChars : List Json → List Char
  | [] => []
  | [x] => jsonChars x
  | x :: y :: xs => jsonChars x ++ ',' :: arrChars (y :: xs)
termination_by structural l => l

/-- Comma-separated serialisation of object members (each `"key":value`). -/
def objChars : List (String × Json) → List Char
  | [] => []
  | [(k, v)] => '"' :: (escChars k.data ++ '"' :: ':' :: jsonChars v)
  | (k, v) :: q :: xs =>
    ('"' :: (escChars k.data ++ '"' :: ':' :: jsonChars v)) ++ ',' :: objChars (q :: xs)
termination_by structural l => l

end

/-- Serialisation of a single `"key":value` member. -/
def memberChars : String × Json → List Char
  | (k, v) => '"' :: (escChars k.data ++ '"' :: ':' :: jsonChars v)

mutual

/-- Structural size of a JSON value, used as the parser fuel bound. -/
def szJ : Json → Nat
  | .null => 1
  | .bool _ => 1
  | .num _ => 1
  | .str _ => 1
  | .arr l => 1 + szArr l
  | .obj l => 1 + szObj l

/-- Structural size of array elements. -/
def szArr : List Json → Nat
  | [] => 0
  | x :: xs => 1 + szJ x + szArr xs

/-- Structural size of object members. -/
def szObj : List (String × Json) → Nat
  | [] => 0
  | p :: xs => 1 + szJ p.2 + szObj xs

end

/-! ## The JSON parser (model of the document decoding done by
`sigs.k8s.io/yaml` + `protojson` on the compact syntax) -/

/-- Read string content up to an unescaped closing quote. -/
def parseStrAux (acc : List Char) : List Char → Option (List Char × List Char)
  | [] => none
  | c :: cs =>
    if c = '\\' then
      match cs with
      | [] => none
      | c2 :: cs2 => parseStrAux (c2 :: acc) cs2
    else if c = '"' then some (acc.reverse, cs)
    else parseStrAux (c :: acc) cs

/-- Expect a literal run of characters. -/
def expectLit (lit : List Char) (cs : List Char) : Option (List Char) :=
  if isPre lit cs then some (cs.drop lit.length) else none

/-- Parse a decimal integer (optional leading minus). -/
def parseNum : List Char → Option (Json × List Char)
  | '-' :: cs =>
    match spanDigits cs with
    | ([], _) => none
    | (ds, r) => some (.num (-(natFromDigits ds : Int)), r)
  | cs =>
    match spanDigits cs with
    | ([], _) => none
    | (ds, r) => some (.num (natFromDigits ds), r)

mutual

/-- Fuelled parser for a JSON value. -/
def parseV : Nat → List Char → Option (Json × List Char)
  | 0, _ => none
  | n + 1, cs =>
    match cs with
    | [] => none
    | c :: cs' =>
      if c = '\x7b' then
        if cs'.head? = some '\x7d' then some (.obj [], cs'.tail)
        else (parseMembers n cs').map fun p => (Json.obj p.1, p.2)
      else if c = '[' then
        if cs'.head? = some ']' then some (.arr [], cs'.tail)
        else (parseElems n cs').map fun p => (Json.arr p.1, p.2)
      else if c = '"' then
        (parseStrAux [] cs').map fun p => (Json.str (String.mk p.1), p.2)
      else if c = 't' then (expectLit ['r', 'u', 'e'] cs').map fun r => (Json.bool true, r)
      else if c = 'f' then (expectLit ['a', 'l', 's', 'e'] cs').map fun r => (Json.bool false, r)
      else if c = 'n' then (expectLit ['u', 'l', 'l'] cs').map fun r => (Json.null, r)
      else parseNum (c :: cs')

/-- Fuelled parser for the members of a non-empty object, consuming the closing brace. -/
def parseMembers : Nat → List Char → Option (List (String × Json) × List Char)
  | 0, _ => none
  | n + 1, cs =>
    match cs with
    | [] => none
    | c :: cs' =>
      if c = '"' then
        match parseStrAux [] cs' with
        | none => none
        | some (k, rest1) =>
          match rest1 with
          | ':' :: cs'' =>
            match parseV n cs'' with
            | none => none
            | some (v, r) =>
              if r.head? = some ',' then
                (parseMembers n r.tail).map fun p => ((String.mk k, v) :: p.1, p.2)
              else if r.head? = some '\x7d' then some ([(String.mk k, v)], r.tail)
              else none
          | _ => none
      else none

/-- Fuelled parser for the elements of a non-empty array, consuming the closing bracket. -/
def parseElems : Nat → List Char → Option (List Json × List Char)
  | 0, _ => none
  | n + 1, cs =>
    match parseV n cs with
    | none => none
    | some (v, r) =>
      if r.head? = some ',' then
        (parseElems n r.tail).map fun p => (v :: p.1, p.2)
      else if r.head? = some ']' then some ([v], r.tail)
      else none

end

/-- Model of `yaml.JSONToYAML` ∘ `protojson.Marshal` for one document: the
serialised text, newline-terminated as the real emitter produces. -/
def jsonToYAML (j : Json) : String :=
  String.mk (jsonChars j ++ ['\n'])

/-- Model of `yaml.YAMLToJSON`: an empty (all-whitespace) document is `null`,
otherwise the document must parse in the compact syntax with nothing left
over.  Surrounding whitespace is tolerated as the real parser does. -/
def yamlToJSON (s : String) : Except String Json :=
  let t := trimChars s.data
  match t with
  | [] => .ok .null
  | _ =>
    match parseV (t.length + 1) t with
    | some (v, []) => .ok v
    | _ => .error "error converting YAML to JSON"

/-- Model of `protojson.Unmarshal` into a `structpb.Struct`: the JSON value
must be an object. -/
def protojsonUnmarshal (j : Json) : Except String Resource :=
  match j with
  | .obj f => .ok f
  | _ => .error "cannot parse JSON"

/-! ## `sjson` / `gjson` path operations -/

/-- First binding of a key in an association list (object fields, maps). -/
def lookupField {α : Type} (fs : List (String × α)) (k : String) : Option α :=
  match fs with
  | [] => none
  | (k', v) :: rest => if k' = k then some v else lookupField rest k

/-- Update the binding of `k` in an object field list with `upd`, appending
`(k, upd .null)` when `k` is absent. -/
def setFieldGo (upd : Json → Json) (k : String) : List (String × Json) → List (String × Json)
  | [] => [(k, upd .null)]
  | (k', v') :: tl =>
    if k' = k then (k, upd v') :: tl
    else (k', v') :: setFieldGo upd k tl

/-- Path-indexed form of `sjson.SetBytes`: set `v` at the dotted path,
creating intermediate objects (and replacing non-object intermediates). -/
def setPathF : List String → Json → Json → Json
  | [], v, _ => v
  | k :: rest, v, j =>
    match j with
    | .obj fields => .obj (setFieldGo (setPathF rest v) k fields)
    | _ => .obj [(k, setPathF rest v .null)]

/-- Model of `sjson.SetBytes` in the source's argument order. -/
def setPath (j : Json) (path : List String) (v : Json) : Json :=
  setPathF path v j

/-- Update helper matching the source's field-level behaviour. -/
def setField (fs : List (String × Json)) (k : String) (rest : List String) (v : Json) :
    List (String × Json) :=
  setFieldGo (setPathF rest v) k fs

/-- Walk a dotted path through objects (model of `gjson` path traversal). -/
def getPath (j : Json) : List String → Option Json
  | [] => some j
  | k :: rest =>
    match j with
    | .obj fields =>
      match lookupField fields k with
      | some v => getPath v rest
      | none => none
    | _ => none

/-- Model of `gjson.GetBytes(...).String()`: the string form of the value at
the path, `""` when absent or null. -/
def gjsonString (j : Json) (p : List String) : String :=
  match getPath j p with
  | some (.str s) => s
  | some (.bool true) => "true"
  | some (.bool false) => "false"
  | some (.num n) => String.mk (numChars n)
  | some .null => ""
  | some (.arr l) => String.mk (jsonChars (.arr l))
  | some (.obj l) => String.mk (jsonChars (.obj l))
  | none => ""

/-- The identity-annotation path `metadata.annotations.upbound\.io/name`
used by both `ComposedToYAML` and `ComposedFromYAML`. -/
def annPath : List String := ["metadata", "annotations", "upbound.io/name"]

/-- The document annotated with its name: what `ComposedToYAML` serialises
for an entry `(name, resource)`. -/
def annotate (r : Resource) (name : String) : Resource :=
  setField r "metadata" ["annotations", "upbound.io/name"] (.str name)

/-! ## The resource codec (`fn.go`) -/

/-- Characters of the document stream produced by `ComposedToYAML`:
`"---\n" + doc` per entry, each doc newline-terminated. -/
def encodeStream : List (String × Resource) → List Char
  | [] => []
  | (name, r) :: rest =>
    '-' :: '-' :: '-' :: '\n' ::
      (jsonChars (setPath (.obj r) annPath (.str name)) ++ '\n' :: encodeStream rest)

/-- Model of `ComposedToYAML`: serialise each named resource with its
`upbound.io/name` annotation force-set, prefixing each document with the
`---` boundary.  The Go map's unspecified iteration order is modelled by
the association-list order. -/
def ComposedToYAML (cds : List (String × Resource)) : Except String String :=
  .ok (String.mk (encodeStream cds))

/-- Conflict error text of `ComposedFromYAML` (Go `%q` quotes the name). -/
def conflictMsg (name : String) : String :=
  "\x27upbound.io/name\x27 annotation \"" ++ name ++ "\" must be unique within the YAML stream"

/-- Missing-identity error text of `ComposedFromYAML`. -/
def missingMsg : String :=
  "missing \x27upbound.io/name\x27 annotation"

/-- Loop body of `ComposedFromYAML` over the split fragments, with the
accumulated output map (insertion-ordered). -/
def fromYAMLGo : List String → List (String × Resource) → Except String (List (String × Resource))
  | [], out => .ok out
  | doc :: docs, out =>
    if doc = "" then fromYAMLGo docs out
    else
      match yamlToJSON doc with
      | .error _ => .error "cannot parse YAML"
      | .ok j =>
        match protojsonUnmarshal j with
        | .error e => .error e
        | .ok s =>
          let name := gjsonString j annPath
          if name = "" then .error missingMsg
          else if (lookupField out name).isSome then .error (conflictMsg name)
          else fromYAMLGo docs (out ++ [(name, s)])

/-- Model of `ComposedFromYAML`: split the stream on `---`, skip empty
fragments, parse each document, and key it by its identity annotation. -/
def ComposedFromYAML (y : String) : Except String (List (String × Resource)) :=
  fromYAMLGo (goSplit y "---") []

/-- Model of `removeYAMLMarkdown`: trim whitespace, then strip one leading
markdown fence opener and one trailing fence closer. -/
def removeYAMLMarkdown (i : String) : String :=
  let wsRemoved := goTrimSpace i
  let yamlPfx := trimPfx wsRemoved "```yaml"
  trimSfx yamlPfx "```"

/-- Model of `CompositeToYAML`: serialise the observed composite (an absent
composite marshals as the empty object). -/
def CompositeToYAML (xr : Option Resource) : Except String String :=
  match xr with
  | some r => .ok (jsonToYAML (.obj r))
  | none => .ok (jsonToYAML (.obj []))

/-- Model of `resourceFrom` (`operationPipeline` reply interpretation): try
the reply as YAML/JSON, require an object, and key the single resource by
its `metadata.name`.  The raw-bytes fallback of the source re-parses the
same text and fails the same way in this model. -/
def resourceFrom (i : String) : Except String (List (String × Resource)) :=
  match yamlToJSON i with
  | .ok j =>
    match protojsonUnmarshal j with
    | .error e => .error e
    | .ok r => .ok [(gjsonString j ["metadata", "name"], r)]
  | .error _ => .error "cannot parse JSON"

/-! ## The tool config resolver (`internal/tool`) -/

namespace tool

/-- Transport is a string enum (`internal/tool/config.go`). -/
abbrev Transport := String

/-- Server-Sent Events transport value. -/
def SSE : Transport := "sse"

/-- Streamable HTTP transport value. -/
def StreamableHTTP : Transport := "http-stream"

/-- An MCP tool-provider endpoint configuration. -/
structure Config where
  Transport : Transport
  BaseURL : String
deriving DecidableEq, Repr

/-- The zero `Config` (Go zero value). -/
def Config.zero : Config := ⟨"", ""⟩

/-- Model of `Config.Valid`: a base URL is required and the transport must
be one of the two recognised values. -/
def Valid (c : Config) : Except String Unit :=
  if c.BaseURL.length = 0 then .error "invalid mcp config: baseURL required"
  else if c.Transport = SSE || c.Transport = StreamableHTTP then .ok ()
  else .error "invalid mcp config: transport must be one of \x27sse\x27 or \x27http-stream"

/-- Model of `Resolver.merge`: fields of `currentc` that are unset (empty)
are filled from `newc`; set fields are never overwritten. -/
def merge (currentc newc : Config) : Config :=
  let c1 :=
    if currentc.Transport = "" && newc.Transport ≠ "" then
      { currentc with Transport := newc.Transport }
    else currentc
  if c1.BaseURL = "" && newc.BaseURL ≠ "" then
    { c1 with BaseURL := newc.BaseURL }
  else c1

/-- Fold of `merge` over a fragment sequence starting from the zero
`Config`, as `FromEnvVars` accumulates fragments for one provider key. -/
def mergeList (fs : List Config) : Config :=
  fs.foldl merge Config.zero

/-- The literal part of the env-var pattern `MCP_SERVER_TOOL_(?P<key>.*)_(?P<type>.*)`. -/
def mcpLit : List Char := "MCP_SERVER_TOOL_".data

/-- Split a character list at its last `'_'`: greedy `(.*)_(.*)` capture. -/
def splitLastUnd (cs : List Char) : Option (List Char × List Char) :=
  match cs with
  | [] => none
  | c :: rest =>
    match splitLastUnd rest with
    | some (a, b) => some (c :: a, b)
    | none => if c = '_' then some ([], rest) else none

/-- Model of `re.FindStringSubmatch` for the fixed pattern
`MCP_SERVER_TOOL_(?P<key>.*)_(?P<type>.*)` (Go leftmost-first, greedy `.*`,
`.` not matching newline): the leftmost occurrence of the literal whose
line remainder contains an underscore yields the two captures. -/
def reFind : List Char → Option (List Char × List Char)
  | [] => none
  | c :: cs =>
    if isPre mcpLit (c :: cs) then
      let rest := (c :: cs).drop mcpLit.length
      let line := rest.takeWhile (fun ch => ch ≠ '\n')
      match splitLastUnd line with
      | some (k, t) => some (k, t)
      | none => reFind cs
    else reFind cs

/-- Model of `Resolver.parse`.  `none` models the Go panics: indexing the
nil submatch slice when the regex does not match, and indexing `vtype[1]`
when the field selector has no `=`. -/
def parse (e : String) : Option (String × Config) :=
  match reFind e.data with
  | none => none
  | some (k, t) =>
    let key := goToLower (String.mk k)
    let tLow := goToLower (String.mk t)
    let vtype := goSplit tLow "="
    match vtype with
    | [] => none
    | v0 :: vrest =>
      if v0 = "transport" then
        match vrest with
        | [] => none
        | v1 :: _ => some (key, { Transport := v1, BaseURL := "" })
      else if v0 = "baseurl" then
        match vrest with
        | [] => none
        | v1 :: _ => some (key, { Transport := "", BaseURL := v1 })
      else some (key, Config.zero)

/-- Insert-or-replace into an association map (Go `cfgs[k] = v`). -/
def setAssoc {α : Type} (m : List (String × α)) (k : String) (v : α) : List (String × α) :=
  match m with
  | [] => [(k, v)]
  | (k', v') :: rest => if k' = k then (k, v) :: rest else (k', v') :: setAssoc rest k v

/-- Accumulation loop of `FromEnvVars` over the environment entries. -/
def fromEnvLoop : List String → List (String × Config) → Option (List (String × Config))
  | [], cfgs => some cfgs
  | e :: es, cfgs =>
    if goHasPfx e "MCP_SERVER_TOOL_" then
      match parse e with
      | none => none
      | some (k, newc) =>
        let current := (lookupField cfgs k).getD Config.zero
        fromEnvLoop es (setAssoc cfgs k (merge current newc))
    else fromEnvLoop es cfgs

/-- Model of `Resolver.FromEnvVars`: accumulate fragments per provider key,
then drop invalid configs.  `none` models a panic inside `parse`. -/
def FromEnvVars (environ : List String) : Option (List (String × Config)) :=
  match fromEnvLoop environ [] with
  | none => none
  | some cfgs => some (cfgs.filter fun kv => (Valid kv.2).toBool)

end tool

/-! ## The pipeline dispatcher (`fn.go`, current version) -/

/-- Severity of a response result (`fnv1.Severity`). -/
inductive Severity where
  | normal : Severity
  | warning : Severity
  | fatal : Severity
deriving DecidableEq, Repr

/-- One entry of `rsp.Results`. -/
structure FnResult where
  severity : Severity
  message : String
deriving DecidableEq, Repr

/-- One entry of `rsp.Conditions` (the target is always composite+claim here). -/
structure Condition where
  typ : String
  status : Bool
  reason : String
deriving DecidableEq, Repr

/-- The response state the pipeline mutates: desired resources (`none`
models the nil map), results and conditions. -/
structure Rsp where
  desiredResources : Option (List (String × Resource))
  results : List FnResult
  conditions : List Condition

/-- Model of `response.Fatal`: append a fatal-severity result. -/
def fatalTo (rsp : Rsp) (msg : String) : Rsp :=
  { rsp with results := rsp.results ++ [⟨.fatal, msg⟩] }

/-- Model of `response.Normal`: append a normal-severity result. -/
def normalTo (rsp : Rsp) (msg : String) : Rsp :=
  { rsp with results := rsp.results ++ [⟨.normal, msg⟩] }

/-- Model of `response.ConditionTrue(rsp, "FunctionSuccess", "Success")`. -/
def condTrue (rsp : Rsp) : Rsp :=
  { rsp with conditions := rsp.conditions ++ [⟨"FunctionSuccess", true, "Success"⟩] }

/-- The `v1alpha1.Prompt` function input. -/
structure Prompt where
  systemPrompt : String
  userPrompt : String
deriving DecidableEq, Repr

/-- Credentials as resolved by `request.GetCredentials`: a type tag and the
data map. -/
structure Creds where
  typ : String
  data : List (String × String)
deriving DecidableEq, Repr

/-- The request, with the results of the SDK extraction helpers
(`request.GetInput`, `request.GetCredentials`, `request.GetRequiredResources`)
embedded as data: `input`/`creds` carry the `Except` outcome of decoding. -/
structure Req where
  context : List (String × Json)
  input : Except String Prompt
  creds : Except String Creds
  observedComposite : Option Resource
  observedResources : List (String × Resource)
  required : List (String × List Resource)
  desired : Option (List (String × Resource))

/-- Model of `response.To(req, ttl)`: a fresh response carrying over the
request's desired state. -/
def responseTo (req : Req) : Rsp :=
  { desiredResources := req.desired, results := [], conditions := [] }

/-- Model of `inCompositionPipeline`: an observed composite is present. -/
def inCompositionPipeline (req : Req) : Bool :=
  req.observedComposite.isSome

/-- Model of `shouldIgnore`: the context holds the ignored-resource marker
with boolean value true. -/
def shouldIgnore (req : Req) : Bool :=
  match lookupField req.context "ops.upbound.io/ignored-resource" with
  | some (.bool b) => b
  | _ => false

/-- Variables for the composition-mode prompt template. -/
structure Variables where
  Composite : String
  Composed : String
deriving DecidableEq, Repr

/-- Variables for the operation-mode prompt template. -/
structure OperationVariables where
  Input : String
  Resources : String
deriving DecidableEq, Repr

/-- A parsed Go template, modelled by its two render functions (the source
executes the same parsed template against either variable record). -/
structure Tmpl where
  execComp : Variables → Except String String
  execOp : OperationVariables → Except String String

/-- The external collaborators: the `html/template` engine and the
`agentInvoker` LLM call (`Invoke(ctx, key, system, prompt, baseURL, model)`). -/
structure Collab where
  parseTmpl : String → Except String Tmpl
  invoke : String → String → String → String → String → Except String String

/-- The per-request aggregate `pipelineDetails`. -/
structure PipelineDetails where
  req : Req
  rsp : Rsp
  inp : Prompt
  cred : String
  baseURL : String
  model : String

/-- The required-resources key the operation pipeline watches. -/
def watchedKey : String := "ops.crossplane.io/watched-resource"

/-- Model of `Function.compositionPipeline`. -/
def compositionPipeline (co : Collab) (d : PipelineDetails) : Rsp :=
  match co.parseTmpl d.inp.userPrompt with
  | .error _ => fatalTo d.rsp "cannot parse userPrompt"
  | .ok t =>
    match CompositeToYAML d.req.observedComposite with
    | .error _ => fatalTo d.rsp "cannot convert observed XR to YAML"
    | .ok xr =>
      match ComposedToYAML d.req.observedResources with
      | .error _ => fatalTo d.rsp "cannot convert observed composed resources to YAML"
      | .ok cds =>
        match t.execComp ⟨xr, cds⟩ with
        | .error _ => fatalTo d.rsp "cannot build prompt from template"
        | .ok pb =>
          match co.invoke d.cred d.inp.systemPrompt pb d.baseURL d.model with
          | .error _ => fatalTo d.rsp "failed to run chain"
          | .ok resp =>
            match ComposedFromYAML (removeYAMLMarkdown resp) with
            | .error e => fatalTo d.rsp ("did not receive a YAML stream from GPT: " ++ e)
            | .ok dcds => { d.rsp with desiredResources := some dcds }

/-- Model of `Function.operationPipeline`. -/
def operationPipeline (co : Collab) (d : PipelineDetails) : Rsp :=
  match co.parseTmpl d.inp.userPrompt with
  | .error _ => fatalTo d.rsp "failed to parse UserPrompt as a go-template"
  | .ok t =>
    match lookupField d.req.required watchedKey with
    | none => condTrue d.rsp
    | some rs =>
      if rs.length ≠ 1 then
        fatalTo d.rsp "too many resources sent to the function. expected 1"
      else
        let rb := String.mk (jsonChars (.obj (rs.headD [])))
        match t.execOp ⟨d.inp.userPrompt, rb⟩ with
        | .error _ => fatalTo d.rsp "cannot build prompt from template"
        | .ok vars =>
          match co.invoke d.cred d.inp.systemPrompt vars d.baseURL d.model with
          | .error e => fatalTo d.rsp ("failed to run chain: " ++ e)
          | .ok resp =>
            let desired := resourceFrom resp
            let rsp1 := normalTo (condTrue d.rsp) resp
            { rsp1 with desiredResources := desired.toOption }

/-- Model of `Function.RunFunction` (current version): the ignored-resource
short-circuit, input and credential extraction, then mode dispatch. -/
def RunFunction (co : Collab) (req : Req) : Rsp :=
  let rsp := responseTo req
  if shouldIgnore req then
    normalTo (condTrue rsp) "received an ignored resource, skipping"
  else
    match req.input with
    | .error _ => fatalTo rsp "cannot get Function input"
    | .ok inp =>
      match req.creds with
      | .error _ => fatalTo rsp "cannot get OPENAI_API_KEY from credential \"gpt\""
      | .ok c =>
        if c.typ ≠ "data" then fatalTo rsp "expected credential \"gpt\" to be \"data\""
        else
          match lookupField c.data "OPENAI_API_KEY" with
          | none => fatalTo rsp "credential \"gpt\" is missing required key \"OPENAI_API_KEY\""
          | some b =>
            let key := String.mk (trimByChars (fun ch => ch = '\n') b.data)
            let baseURL :=
              match lookupField c.data "OPENAI_BASE_URL" with
              | some s => String.mk (trimByChars (fun ch => ch = '\n') s.data)
              | none => ""
            let model :=
              match lookupField c.data "OPENAI_MODEL" with
              | some s => String.mk (trimByChars (fun ch => ch = '\n') s.data)
              | none => "gpt-4"
            let d : PipelineDetails := ⟨req, rsp, inp, key, baseURL, model⟩
            if inCompositionPipeline req then compositionPipeline co d
            else operationPipeline co d

/-! ## Derived notions used by the statements -/

/-- The document-boundary separator characters. -/
def sepChars : List Char := ['-', '-', '-']

/-- The fragment character lists that splitting an encoded stream yields,
one per entry, in entry order. -/
def fragsOf (m : List (String × Resource)) : List (List Char) :=
  m.map fun p => '\n' :: (jsonChars (setPath (.obj p.2) annPath (.str p.1)) ++ ['\n'])

/-- The annotated form of a named-resource mapping: what a lossless decode
of its encoding must return. -/
def annotated (m : List (String × Resource)) : List (String × Resource) :=
  m.map fun p => (p.1, annotate p.2 p.1)

/-- Whether a fragment parses to a JSON object in the model. -/
def isObjDoc (doc : String) : Bool :=
  match yamlToJSON doc with
  | .ok (.obj _) => true
  | _ => false

/-- The identity-annotation value a fragment carries (empty when the
fragment does not parse or the annotation is absent). -/
def docName (doc : String) : String :=
  match yamlToJSON doc with
  | .ok j => gjsonString j annPath
  | .error _ => ""

/-- The non-empty fragments of a stream, as `ComposedFromYAML` walks them. -/
def streamDocs (y : String) : List String :=
  (goSplit y "---").filter fun d => d ≠ ""

/-- First name that repeats an earlier one, walking left to right with the
already-seen names accumulated. -/
def firstDupFrom (seen : List String) : List String → Option String
  | [] => none
  | x :: xs => if x ∈ seen then some x else firstDupFrom (seen ++ [x]) xs

/-- First non-empty string of a list, or `""`: the value first-write-wins
merging leaves in a field. -/
def firstSet : List String → String
  | [] => ""
  | s :: tl => if s = "" then firstSet tl else s

/-! ## Concrete inputs used by counterexamples and witnesses -/

/-- One-entry mapping whose resource content contains the document
separator: `{"a" ↦ {"x": "---"}}`. -/
def c1CexM : List (String × Resource) := [("a", [("x", Json.str "---")])]

/-- Small well-behaved mapping for the round-trip witness. -/
def c1WitM : List (String × Resource) :=
  [("a", [("x", Json.str "v")]), ("b", [("y", Json.num 3)])]

/-- Template value whose renders always succeed. -/
def tmplOk : Tmpl :=
  { execComp := fun _ => .ok "rendered", execOp := fun _ => .ok "rendered" }

/-- Collaborators whose template parse succeeds and whose model invocation
fails (a failed or cancelled LLM call). -/
def collabInvokeErr : Collab :=
  { parseTmpl := fun _ => .ok tmplOk
    invoke := fun _ _ _ _ _ => .error "context canceled" }

/-- Collaborators whose template parse succeeds and whose model invocation
returns a fixed plain-text reply. -/
def collabReplyText : Collab :=
  { parseTmpl := fun _ => .ok tmplOk
    invoke := fun _ _ _ _ _ => .ok "plain text reply" }

/-- Collaborators modelling Go `template.Parse` on an invalid template such
as `"{{"`: the parse fails. -/
def collabParseErr : Collab :=
  { parseTmpl := fun s => if s = "\x7b\x7b" then .error "unclosed action" else .ok tmplOk
    invoke := fun _ _ _ _ _ => .ok "reply" }

/-- A well-formed request carrying one watched resource. -/
def reqWatched : Req :=
  { context := []
    input := .ok ⟨"sys", "do things"⟩
    creds := .ok ⟨"data", [("OPENAI_API_KEY", "k")]⟩
    observedComposite := none
    observedResources := []
    required := [(watchedKey, [[("kind", Json.str "Widget")]])]
    desired := none }

/-- A request with no entry under the watched-resource key. -/
def reqNoWatched : Req :=
  { context := []
    input := .ok ⟨"sys", "do things"⟩
    creds := .ok ⟨"data", [("OPENAI_API_KEY", "k")]⟩
    observedComposite := none
    observedResources := []
    required := []
    desired := some [("keep", [("kind", Json.str "Kept")])] }

/-- The same request with the invalid template `"{{"` as user prompt. -/
def reqNoWatchedBadTmpl : Req :=
  { reqNoWatched with input := .ok ⟨"sys", "\x7b\x7b"⟩ }

/-- Pipeline details built the way `RunFunction` builds them, for a request. -/
def detailsFor (req : Req) (p : Prompt) : PipelineDetails :=
  ⟨req, responseTo req, p, "k", "", "gpt-4"⟩

/-- A request carrying the ignored-resource marker set to boolean true. -/
def reqIgnored : Req :=
  { context := [("ops.upbound.io/ignored-resource", Json.bool true)]
    input := .error "never read"
    creds := .error "never read"
    observedComposite := some [("kind", Json.str "XR")]
    observedResources := []
    required := []
    desired := some [("keep", [("kind", Json.str "Kept")])] }

/-- A duplicate-annotation document in compact form. -/
def dupDoc : String :=
  "\x7b\"metadata\":\x7b\"annotations\":\x7b\"upbound.io/name\":\"a\"\x7d\x7d\x7d"

/-- A stream holding the duplicate document twice. -/
def dupStream : String :=
  "---\n" ++ dupDoc ++ "\n---\n" ++ dupDoc ++ "\n"

/-! ## Basic lemmas about the string primitives -/

theorem head?_dropWhile {p : Char → Bool} : ∀ {l : List Char} {c : Char},
    (l.dropWhile p).head? = some c → p c = false := by
  intro l
  induction l with
  | nil => intro c h; simp at h
  | cons a t ih =>
    intro c h
    rw [List.dropWhile_cons] at h
    by_cases hp : p a
    · simp [hp] at h; exact ih h
    · simp [hp] at h
      subst h
      simpa using hp

theorem dropWhile_dropWhile {p : Char → Bool} (l : List Char) :
    (l.dropWhile p).dropWhile p = l.dropWhile p := by
  cases h : l.dropWhile p with
  | nil => rfl
  | cons a t =>
    have : p a = false := head?_dropWhile (by rw [h]; rfl)
    simp [List.dropWhile_cons, this]

theorem dropWhile_of_head_false {p : Char → Bool} {l : List Char}
    (h : ∀ c, l.head? = some c → p c = false) : l.dropWhile p = l := by
  cases l with
  | nil => rfl
  | cons a t => simp [List.dropWhile_cons, h a rfl]

theorem trimByChars_idem (p : Char → Bool) (l : List Char) :
    trimByChars p (trimByChars p l) = trimByChars p l := by
  unfold trimByChars
  set D := (l.dropWhile p).reverse.dropWhile p with hD
  have h1 : (D.reverse).dropWhile p = D.reverse := by
    apply dropWhile_of_head_false
    intro c hc
    -- the head of `D.reverse` is the head of `l.dropWhile p`
    have hsplit : (l.dropWhile p).reverse = ((l.dropWhile p).reverse.takeWhile p) ++ D := by
      rw [hD]; exact (List.takeWhile_append_dropWhile p (l.dropWhile p).reverse).symm
    have hL : l.dropWhile p = D.reverse ++ ((l.dropWhile p).reverse.takeWhile p).reverse := by
      have := congrArg List.reverse hsplit
      simpa [List.reverse_append] using this
    cases hDr : D.reverse with
    | nil => rw [hDr] at hc; simp at hc
    | cons d dt =>
      rw [hDr] at hc
      simp at hc
      subst hc
      apply head?_dropWhile (l := l)
      rw [hL, hDr]
      rfl
  rw [h1, List.reverse_reverse, hD, dropWhile_dropWhile]

theorem trimChars_idem (l : List Char) : trimChars (trimChars l) = trimChars l :=
  trimByChars_idem isWs l

theorem mk_data (s : String) : String.mk s.data = s := rfl

theorem data_mk (l : List Char) : (String.mk l).data = l := rfl

/-! ## Claim C3: `removeYAMLMarkdown` -/

/-- C3 (counterexample): `removeYAMLMarkdown` is not idempotent — on the
fenced input ```` ```yaml\na\n``` ```` one application yields `"\na\n"` and a
second application yields `"a"`. -/
theorem removeYAMLMarkdown_not_idempotent :
    removeYAMLMarkdown (removeYAMLMarkdown "```yaml\na\n```") ≠
      removeYAMLMarkdown "```yaml\na\n```" := by
  have h1 : removeYAMLMarkdown "```yaml\na\n```" = "\na\n" := rfl
  have h2 : removeYAMLMarkdown "\na\n" = "a" := rfl
  rw [h1, h2]
  decide

/-- C3 (amended): on text with no fencing — the trimmed text neither starts
with the fence opener nor ends with a fence closer — `removeYAMLMarkdown`
returns the text trimmed of surrounding whitespace, and on such text it is
idempotent.  (In general it is not idempotent: see the counterexample.) -/
theorem removeYAMLMarkdown_no_fencing (x : String)
    (h1 : isPre "```yaml".data (trimChars x.data) = false)
    (h2 : isPre "```".data.reverse (trimChars x.data).reverse = false) :
    removeYAMLMarkdown x = goTrimSpace x ∧
      removeYAMLMarkdown (removeYAMLMarkdown x) = removeYAMLMarkdown x := by
  have hbase : removeYAMLMarkdown x = goTrimSpace x := by
    unfold removeYAMLMarkdown trimPfx trimSfx goTrimSpace
    simp only [data_mk, h1, h2, Bool.false_eq_true, if_false]
  refine ⟨hbase, ?_⟩
  rw [hbase]
  unfold removeYAMLMarkdown trimPfx trimSfx goTrimSpace
  simp only [data_mk, trimChars_idem, h1, h2, Bool.false_eq_true, if_false]

/-- C3 (witness): the amended statement applied to the fence-free text
`" hello\n"`. -/
theorem removeYAMLMarkdown_no_fencing_witness :
    removeYAMLMarkdown " hello\n" = goTrimSpace " hello\n" ∧
      removeYAMLMarkdown (removeYAMLMarkdown " hello\n") =
        removeYAMLMarkdown " hello\n" :=
  removeYAMLMarkdown_no_fencing " hello\n" (by decide) (by decide)

/-! ## Claim C4: fragment discarding in `ComposedFromYAML` -/

theorem fromYAMLGo_filter : ∀ (l : List String) (out : List (String × Resource)),
    fromYAMLGo l out = fromYAMLGo (l.filter fun d => d ≠ "") out := by
  intro l
  induction l with
  | nil => intro out; rfl
  | cons d t ih =>
    intro out
    by_cases hd : d = ""
    · subst hd
      simp only [fromYAMLGo, if_pos rfl, List.filter_cons]
      simpa using ih out
    · have hfil : ((d :: t).filter fun x => x ≠ "") = d :: (t.filter fun x => x ≠ "") := by
        simp [hd]
      rw [hfil]
      simp only [fromYAMLGo, if_neg hd]
      cases yamlToJSON d with
      | error e => rfl
      | ok j =>
        dsimp only
        cases protojsonUnmarshal j with
        | error e => rfl
        | ok s =>
          dsimp only
          by_cases hn : gjsonString j annPath = ""
          · simp [hn]
          · simp only [if_neg hn]
            by_cases hseen : (lookupField out (gjsonString j annPath)).isSome
            · simp [hseen]
            · simp only [Bool.not_eq_true] at hseen
              simp [hseen, ih]

/-- C4 (counterexample): a whitespace-only non-empty fragment is not
discarded — it is parsed (yielding YAML null) and fails the JSON-struct
conversion, so `decodeMany` errors on `"---\n \n"` instead of ignoring the
whitespace-only fragment. -/
theorem composedFromYAML_ws_fragment_errors :
    ComposedFromYAML "---\n \n" = .error "cannot parse JSON" := rfl

/-- C4 (amended): `ComposedFromYAML` splits its input on `---` and discards
exactly the fragments that are the empty string (not those merely empty
after trimming): decoding any stream equals decoding its non-empty
fragments, and exactly-empty fragments contribute neither an entry nor an
error.  Whitespace-only fragments are parsed, not discarded (see the
counterexample). -/
theorem composedFromYAML_discards_empty (y : String) :
    ComposedFromYAML y = fromYAMLGo (streamDocs y) [] := by
  unfold ComposedFromYAML streamDocs
  exact fromYAMLGo_filter _ _

/-! ## Claim C8: `parse` on an entry with no underscore after the prefix -/

/-- C8: on the environment entry `MCP_SERVER_TOOL_X=y` the regex
`MCP_SERVER_TOOL_(?P<key>.*)_(?P<type>.*)` has no match (the remainder
holds no underscore), `FindStringSubmatch` returns nil, and `parse` indexes
it — a runtime panic, modelled by `none` propagating out of `FromEnvVars`. -/
theorem fromEnvVars_panics_on_no_underscore :
    tool.FromEnvVars ["MCP_SERVER_TOOL_X=y"] = none := rfl

/-! ## Claim C2: model-invocation errors in operation mode -/

/-- C2 (counterexample): with one watched resource present and a failing
(e.g. cancelled) model invocation, `operationPipeline` emits exactly one
fatal-severity result and no success condition — it does not degrade to a
reported text-only result. -/
theorem operationPipeline_invoke_error_cex :
    (operationPipeline collabInvokeErr (detailsFor reqWatched ⟨"sys", "do things"⟩)).results
        = [⟨Severity.fatal, "failed to run chain: context canceled"⟩]
      ∧ (operationPipeline collabInvokeErr
          (detailsFor reqWatched ⟨"sys", "do things"⟩)).conditions = [] :=
  ⟨rfl, rfl⟩

/-- C2 (amended): in operation mode an error returned by the
model-invocation collaborator is fatal: whenever the template parses, the
single watched resource is found and rendered, and the invocation fails,
the pipeline aborts with a fatal-severity result (no success condition, no
normal result).  Only a post-invocation failure to interpret the reply
degrades to a reported text-only result. -/
theorem operationPipeline_invoke_error_fatal (co : Collab) (d : PipelineDetails)
    (t : Tmpl) (r : Resource) (p e : String)
    (hparse : co.parseTmpl d.inp.userPrompt = .ok t)
    (hlook : lookupField d.req.required watchedKey = some [r])
    (hexec : t.execOp ⟨d.inp.userPrompt, String.mk (jsonChars (.obj r))⟩ = .ok p)
    (hinv : co.invoke d.cred d.inp.systemPrompt p d.baseURL d.model = .error e) :
    operationPipeline co d = fatalTo d.rsp ("failed to run chain: " ++ e) := by
  unfold operationPipeline
  rw [hparse]
  dsimp only
  rw [hlook]
  dsimp only
  simp only [List.length_cons, List.length_nil, List.headD_cons, ne_eq, Nat.zero_add]
  rw [if_neg (by simp)]
  rw [hexec]
  dsimp only
  rw [hinv]

/-- C2 (witness): the amended statement applied to a concrete pipeline run
with a cancelled invocation. -/
theorem operationPipeline_invoke_error_fatal_witness :
    operationPipeline collabInvokeErr (detailsFor reqWatched ⟨"sys", "do things"⟩)
      = fatalTo (responseTo reqWatched) ("failed to run chain: " ++ "context canceled") :=
  operationPipeline_invoke_error_fatal collabInvokeErr
    (detailsFor reqWatched ⟨"sys", "do things"⟩) tmplOk [("kind", Json.str "Widget")]
    "rendered" "context canceled" rfl rfl rfl rfl

/-! ## Claim C6: operation mode with no watched resource -/

/-- C6 (counterexample): a request with no watched-resource entry whose
user prompt does not parse as a template yields a fatal result and no
success condition, so the claim does not hold of every such request. -/
theorem operationPipeline_no_watched_cex :
    (operationPipeline collabParseErr
        (detailsFor reqNoWatchedBadTmpl ⟨"sys", "\x7b\x7b"⟩)).results
        = [⟨Severity.fatal, "failed to parse UserPrompt as a go-template"⟩]
      ∧ (operationPipeline collabParseErr
          (detailsFor reqNoWatchedBadTmpl ⟨"sys", "\x7b\x7b"⟩)).conditions = [] :=
  ⟨rfl, rfl⟩

/-- C6 (amended): in operation mode, whenever the user prompt parses as a
template and the required-resources map has no entry under the
watched-resource key, the pipeline appends exactly the success condition
and returns: the desired resources, results and prior conditions are left
unmodified, and the outcome is independent of the invocation collaborator
(the equation's right-hand side never consults `co.invoke`). -/
theorem operationPipeline_no_watched (co : Collab) (d : PipelineDetails) (t : Tmpl)
    (hparse : co.parseTmpl d.inp.userPrompt = .ok t)
    (hlook : lookupField d.req.required watchedKey = none) :
    operationPipeline co d = condTrue d.rsp := by
  unfold operationPipeline
  rw [hparse]
  dsimp only
  rw [hlook]

/-- C6 (witness): the amended statement applied to a concrete request with
no watched resource. -/
theorem operationPipeline_no_watched_witness :
    operationPipeline collabReplyText (detailsFor reqNoWatched ⟨"sys", "do things"⟩)
      = condTrue (responseTo reqNoWatched) :=
  operationPipeline_no_watched collabReplyText
    (detailsFor reqNoWatched ⟨"sys", "do things"⟩) tmplOk rfl rfl

/-! ## Claim C9: the ignored-resource short-circuit -/

/-- C9: when the request context carries `ops.upbound.io/ignored-resource`
with boolean value true, `RunFunction` short-circuits in both modes: it
returns the fresh response (desired state carried over unchanged) with the
success condition and the normal result message appended — an equation
whose right-hand side is independent of the collaborators and of the
request's input and credential fields, so neither is read and the
model is never invoked. -/
theorem runFunction_ignored (co : Collab) (req : Req)
    (h : shouldIgnore req = true) :
    RunFunction co req
      = normalTo (condTrue (responseTo req)) "received an ignored resource, skipping" := by
  unfold RunFunction
  rw [h]
  rfl

/-- C9 (witness): the short-circuit on a concrete ignored request (whose
input and credential fields would error if they were ever read). -/
theorem runFunction_ignored_witness :
    RunFunction collabReplyText reqIgnored
      = normalTo (condTrue (responseTo reqIgnored)) "received an ignored resource, skipping" :=
  runFunction_ignored collabReplyText reqIgnored rfl

/-! ## Claim C7: first-write-wins merging of tool-config fragments -/

theorem merge_transport_eq (c n : tool.Config) :
    (tool.merge c n).Transport =
      if c.Transport = "" ∧ n.Transport ≠ "" then n.Transport else c.Transport := by
  unfold tool.merge
  by_cases h1 : c.Transport = "" <;> by_cases h2 : n.Transport = "" <;>
    simp [h1, h2] <;> split <;> simp_all

theorem merge_baseURL_eq (c n : tool.Config) :
    (tool.merge c n).BaseURL =
      if c.BaseURL = "" ∧ n.BaseURL ≠ "" then n.BaseURL else c.BaseURL := by
  unfold tool.merge
  by_cases h1 : c.BaseURL = "" <;> by_cases h2 : n.BaseURL = "" <;>
    by_cases h3 : c.Transport = "" <;> by_cases h4 : n.Transport = "" <;>
      simp [h1, h2, h3, h4]

theorem foldl_merge_transport : ∀ (fs : List tool.Config) (c : tool.Config),
    (fs.foldl tool.merge c).Transport =
      if c.Transport = "" then firstSet (fs.map tool.Config.Transport) else c.Transport := by
  intro fs
  induction fs with
  | nil => intro c; by_cases h : c.Transport = "" <;> simp [firstSet, h]
  | cons f t ih =>
    intro c
    simp only [List.foldl_cons, List.map_cons, ih, merge_transport_eq, firstSet]
    by_cases h1 : c.Transport = "" <;> by_cases h2 : f.Transport = "" <;> simp [h1, h2]

theorem foldl_merge_baseURL : ∀ (fs : List tool.Config) (c : tool.Config),
    (fs.foldl tool.merge c).BaseURL =
      if c.BaseURL = "" then firstSet (fs.map tool.Config.BaseURL) else c.BaseURL := by
  intro fs
  induction fs with
  | nil => intro c; by_cases h : c.BaseURL = "" <;> simp [firstSet, h]
  | cons f t ih =>
    intro c
    simp only [List.foldl_cons, List.map_cons, ih, merge_baseURL_eq, firstSet]
    by_cases h1 : c.BaseURL = "" <;> by_cases h2 : f.BaseURL = "" <;> simp [h1, h2]

theorem firstSet_eq_headD (l : List String) :
    firstSet l = ((l.filter fun s => s ≠ "").headD "") := by
  induction l with
  | nil => rfl
  | cons s t ih =>
    by_cases h : s = "" <;> simp [firstSet, h, ih]

theorem eq_of_perm_length_le_one {α : Type} {l l' : List α}
    (h : l.Perm l') (hlen : l'.length ≤ 1) : l = l' := by
  match l', hlen with
  | [], _ => exact h.eq_nil
  | [a], _ => exact List.perm_singleton.mp h

/-- C7: first-write-wins merging — folding `merge` over a fragment
sequence leaves in each field the value of the first fragment that set it
(`firstSet` of the field projections); a field already set is never
overwritten by a later fragment; and when no field is set by two fragments
the merged result is independent of fragment order. -/
theorem merge_first_write_wins (fs : List tool.Config) :
    ((tool.mergeList fs).Transport = firstSet (fs.map tool.Config.Transport)
      ∧ (tool.mergeList fs).BaseURL = firstSet (fs.map tool.Config.BaseURL))
    ∧ (∀ c n : tool.Config, c.Transport ≠ "" → (tool.merge c n).Transport = c.Transport)
    ∧ (∀ c n : tool.Config, c.BaseURL ≠ "" → (tool.merge c n).BaseURL = c.BaseURL)
    ∧ (∀ fs' : List tool.Config, fs'.Perm fs →
        ((fs.map tool.Config.Transport).filter fun s => s ≠ "").length ≤ 1 →
        ((fs.map tool.Config.BaseURL).filter fun s => s ≠ "").length ≤ 1 →
        tool.mergeList fs' = tool.mergeList fs) := by
  refine ⟨⟨?_, ?_⟩, ?_, ?_, ?_⟩
  · rw [tool.mergeList, foldl_merge_transport]; rfl
  · rw [tool.mergeList, foldl_merge_baseURL]; rfl
  · intro c n hc; rw [merge_transport_eq]; simp [hc]
  · intro c n hc; rw [merge_baseURL_eq]; simp [hc]
  · intro fs' hperm ht hb
    have htr : (tool.mergeList fs').Transport = (tool.mergeList fs).Transport := by
      rw [tool.mergeList, tool.mergeList, foldl_merge_transport, foldl_merge_transport]
      simp only [firstSet_eq_headD]
      have hp : ((fs'.map tool.Config.Transport).filter fun s => s ≠ "").Perm
          ((fs.map tool.Config.Transport).filter fun s => s ≠ "") :=
        (hperm.map tool.Config.Transport).filter _
      rw [eq_of_perm_length_le_one hp ht]
    have hba : (tool.mergeList fs').BaseURL = (tool.mergeList fs).BaseURL := by
      rw [tool.mergeList, tool.mergeList, foldl_merge_baseURL, foldl_merge_baseURL]
      simp only [firstSet_eq_headD]
      have hp : ((fs'.map tool.Config.BaseURL).filter fun s => s ≠ "").Perm
          ((fs.map tool.Config.BaseURL).filter fun s => s ≠ "") :=
        (hperm.map tool.Config.BaseURL).filter _
      rw [eq_of_perm_length_le_one hp hb]
    cases hm : tool.mergeList fs'
    cases hm' : tool.mergeList fs
    simp_all

/-- C7 (witness): order independence on the spec's own example — the
fragments `{transport: "sse"}` and `{baseURL: "http://local"}` merge to the
same config in either order. -/
theorem merge_first_write_wins_witness :
    tool.mergeList [⟨"", "http://local"⟩, ⟨"sse", ""⟩]
      = tool.mergeList [⟨"sse", ""⟩, ⟨"", "http://local"⟩] :=
  (merge_first_write_wins [⟨"sse", ""⟩, ⟨"", "http://local"⟩]).2.2.2
    [⟨"", "http://local"⟩, ⟨"sse", ""⟩] (by decide) (by decide) (by decide)

/-! ## Claim C5: duplicate identity annotations -/

theorem lookupField_isSome_iff {α : Type} (out : List (String × α)) (k : String) :
    (lookupField out k).isSome = true ↔ k ∈ out.map Prod.fst := by
  induction out with
  | nil => simp [lookupField]
  | cons p t ih =>
    by_cases h : p.1 = k
    · simp [lookupField, h]
    · simp only [lookupField, if_neg h, List.map_cons, List.mem_cons, ih]
      constructor
      · intro hm; exact Or.inr hm
      · rintro (hm | hm)
        · exact absurd hm.symm h
        · exact hm

theorem fromYAMLGo_dup : ∀ (docs : List String) (out : List (String × Resource)) (n : String),
    (∀ d ∈ docs, d ≠ "" ∧ isObjDoc d = true ∧ docName d ≠ "") →
    firstDupFrom (out.map Prod.fst) (docs.map docName) = some n →
    fromYAMLGo docs out = .error (conflictMsg n) := by
  intro docs
  induction docs with
  | nil => intro out n _ hdup; simp [firstDupFrom] at hdup
  | cons d t ih =>
    intro out n hval hdup
    obtain ⟨hne, hobj, hname⟩ := hval d (List.mem_cons_self d t)
    simp only [List.map_cons, firstDupFrom] at hdup
    unfold isObjDoc at hobj
    unfold fromYAMLGo
    rw [if_neg hne]
    cases hy : yamlToJSON d with
    | error e => rw [hy] at hobj; simp at hobj
    | ok j =>
      rw [hy] at hobj
      cases j with
      | obj f =>
        dsimp only
        have hdn : gjsonString (Json.obj f) annPath = docName d := by
          unfold docName; rw [hy]
        by_cases hseen : docName d ∈ out.map Prod.fst
        · rw [if_pos hseen] at hdup
          obtain rfl : docName d = n := by simpa using hdup
          rw [protojsonUnmarshal]
          dsimp only
          rw [hdn, if_neg hname]
          rw [if_pos (by rw [(lookupField_isSome_iff out (docName d)).mpr hseen])]
        · rw [if_neg hseen] at hdup
          rw [protojsonUnmarshal]
          dsimp only
          rw [hdn, if_neg hname]
          rw [if_neg (by
            intro hc
            exact hseen ((lookupField_isSome_iff out (docName d)).mp (by simpa using hc)))]
          have hkeys : (out ++ [(docName d, f)]).map Prod.fst = out.map Prod.fst ++ [docName d] := by
            simp
          refine ih (out ++ [(docName d, f)]) n ?_ ?_
          · intro x hx; exact hval x (List.mem_cons_of_mem d hx)
          · rw [hkeys]; exact hdup
      | null => simp [protojsonUnmarshal, docName, hy, gjsonString, getPath] at hname
      | bool b => simp [protojsonUnmarshal, docName, hy, gjsonString, getPath] at hname
      | num m => simp at hobj
      | str s => simp at hobj
      | arr l => simp at hobj

theorem firstDupFrom_eq_none_iff : ∀ (names seen : List String),
    firstDupFrom seen names = none ↔ names.Nodup ∧ ∀ x ∈ names, x ∉ seen := by
  intro names
  induction names with
  | nil => intro seen; simp [firstDupFrom]
  | cons x xs ih =>
    intro seen
    by_cases hx : x ∈ seen
    · simp [firstDupFrom, hx]
    · simp only [firstDupFrom, if_neg hx, ih, List.nodup_cons]
      constructor
      · rintro ⟨hnd, hall⟩
        have hxxs : x ∉ xs := by
          intro hc
          have := hall x hc
          simp at this
        refine ⟨⟨hxxs, hnd⟩, ?_⟩
        intro y hy
        rcases List.mem_cons.mp hy with rfl | hy
        · exact hx
        · intro hc
          exact (hall y hy) (by simp [hc])
      · rintro ⟨⟨hxxs, hnd⟩, hall⟩
        refine ⟨hnd, ?_⟩
        intro y hy
        simp only [List.mem_append, List.mem_singleton]
        rintro (hc | rfl)
        · exact (hall y (List.mem_cons_of_mem x hy)) hc
        · exact hxxs hy

theorem firstDupFrom_count : ∀ (names seen : List String) (n : String),
    firstDupFrom seen names = some n →
    (n ∈ seen ∧ n ∈ names) ∨ 2 ≤ names.count n := by
  intro names
  induction names with
  | nil => intro seen n h; simp [firstDupFrom] at h
  | cons x xs ih =>
    intro seen n h
    by_cases hx : x ∈ seen
    · simp only [firstDupFrom, if_pos hx] at h
      obtain rfl : x = n := by simpa using h
      exact Or.inl ⟨hx, List.mem_cons_self x xs⟩
    · simp only [firstDupFrom, if_neg hx] at h
      rcases ih (seen ++ [x]) n h with ⟨hseen, hmem⟩ | hcount
      · rcases List.mem_append.mp hseen with hs | hs
        · exact Or.inl ⟨hs, List.mem_cons_of_mem x hmem⟩
        · obtain rfl : n = x := by simpa using hs
          right
          have h1 : 1 ≤ xs.count n := List.one_le_count_iff.mpr hmem
          simp only [List.count_cons_self]
          omega
      · right
        rcases List.count_cons n x xs ▸ Nat.le_add_right _ _ with _
        calc 2 ≤ xs.count n := hcount
          _ ≤ (x :: xs).count n := by rw [List.count_cons]; omega

/-- C5: for every stream whose non-empty fragments are all valid annotated
documents and which contains two documents with the same identity
annotation value, `ComposedFromYAML` fails with the identity-conflict
error carrying the duplicate name, and returns no mapping. -/
theorem composedFromYAML_identity_conflict (y : String)
    (hval : ∀ d ∈ streamDocs y, isObjDoc d = true ∧ docName d ≠ "")
    (hdup : ¬ ((streamDocs y).map docName).Nodup) :
    ∃ n, 2 ≤ ((streamDocs y).map docName).count n ∧
      ComposedFromYAML y = .error (conflictMsg n) := by
  have hsplit : ComposedFromYAML y = fromYAMLGo (streamDocs y) [] := by
    unfold ComposedFromYAML streamDocs
    exact fromYAMLGo_filter _ _
  have hne : ∀ d ∈ streamDocs y, d ≠ "" := by
    intro d hd
    have := List.mem_filter.mp hd
    simpa using this.2
  cases hfd : firstDupFrom [] ((streamDocs y).map docName) with
  | none =>
    exfalso
    exact hdup ((firstDupFrom_eq_none_iff _ []).mp hfd).1
  | some n =>
    refine ⟨n, ?_, ?_⟩
    · rcases firstDupFrom_count _ [] n hfd with ⟨hs, _⟩ | hc
      · simp at hs
      · exact hc
    · rw [hsplit]
      refine fromYAMLGo_dup (streamDocs y) [] n ?_ (by simpa using hfd)
      intro d hd
      exact ⟨hne d hd, (hval d hd).1, (hval d hd).2⟩

/-- C5 (witness): the conflict on a concrete stream holding the same
annotated document twice. -/
theorem composedFromYAML_identity_conflict_witness :
    ∃ n, 2 ≤ ((streamDocs dupStream).map docName).count n ∧
      ComposedFromYAML dupStream = .error (conflictMsg n) :=
  composedFromYAML_identity_conflict dupStream (by decide) (by decide)

/-! ## Claim C10: lower-casing in `parse` -/

theorem isPre_append_self : ∀ (p r : List Char), isPre p (p ++ r) = true := by
  intro p
  induction p with
  | nil => intro r; rfl
  | cons a t ih => intro r; simp [isPre, ih]

theorem takeWhile_all {p : Char → Bool} : ∀ {l : List Char},
    (∀ c ∈ l, p c = true) → l.takeWhile p = l := by
  intro l
  induction l with
  | nil => intro _; rfl
  | cons a t ih =>
    intro h
    rw [List.takeWhile_cons, if_pos (h a (List.mem_cons_self a t))]
    rw [ih fun c hc => h c (List.mem_cons_of_mem a hc)]

theorem splitLastUnd_of_no_underscore : ∀ {l : List Char},
    '_' ∉ l → tool.splitLastUnd l = none := by
  intro l
  induction l with
  | nil => intro _; rfl
  | cons c t ih =>
    intro h
    have hc : ¬ (c = '_') := fun hc => h (by simp [hc])
    have ht : '_' ∉ t := fun hm => h (List.mem_cons_of_mem c hm)
    simp [tool.splitLastUnd, ih ht, hc]

theorem splitLastUnd_append : ∀ (a b : List Char), '_' ∉ b →
    tool.splitLastUnd (a ++ '_' :: b) = some (a, b) := by
  intro a
  induction a with
  | nil =>
    intro b hb
    simp [tool.splitLastUnd, splitLastUnd_of_no_underscore hb]
  | cons c t ih =>
    intro b hb
    simp [tool.splitLastUnd, ih b hb]

theorem reFind_of_lit (rest k t : List Char)
    (hn : '\n' ∉ rest)
    (hsplit : tool.splitLastUnd rest = some (k, t)) :
    tool.reFind (tool.mcpLit ++ rest) = some (k, t) := by
  have htw : List.takeWhile (fun ch => !decide (ch = '\n')) rest = rest :=
    takeWhile_all (fun c hc => by
      simp only [Bool.not_eq_true', decide_eq_false_iff_not]
      intro hceq
      exact hn (hceq ▸ hc))
  simp only [tool.reFind, tool.mcpLit, isPre]
  simp [isPre, htw, hsplit]

theorem splitAcc_eq_none : ∀ (l acc : List Char), '=' ∉ l →
    splitAcc '=' [] 0 acc l = [acc.reverse ++ l] := by
  intro l
  induction l with
  | nil => intro acc _; simp [splitAcc]
  | cons c t ih =>
    intro acc h
    have hc : ¬ ('=' = c) := fun hce => h (by simp [← hce])
    have ht : '=' ∉ t := fun hm => h (List.mem_cons_of_mem c hm)
    have hpre : isPre ('=' :: ([] : List Char)) (c :: t) = false := by
      simp [isPre, hc]
    simp only [splitAcc, hpre, Bool.false_eq_true, if_false]
    rw [ih (c :: acc) ht]
    simp

theorem splitAcc_eq_split : ∀ (a b acc : List Char), '=' ∉ a →
    splitAcc '=' [] 0 acc (a ++ '=' :: b) = (acc.reverse ++ a) :: splitAcc '=' [] 0 [] b := by
  intro a
  induction a with
  | nil =>
    intro b acc _
    simp [splitAcc, isPre]
  | cons c t ih =>
    intro b acc h
    have hc : ¬ ('=' = c) := fun hce => h (by simp [← hce])
    have ht : '=' ∉ t := fun hm => h (List.mem_cons_of_mem c hm)
    have hpre : isPre ('=' :: ([] : List Char)) (c :: (t ++ '=' :: b)) = false := by
      simp [isPre, hc]
    simp only [List.cons_append, splitAcc, List.append_eq, hpre, Bool.false_eq_true, if_false]
    rw [ih b (c :: acc) ht]
    simp

/-- C10 (counterexample): for the entry `MCP_SERVER_TOOL_K_BASEURL=A_B` the
greedy last-underscore capture makes the field selector `"B"`, so `parse`
returns provider key `"k_baseurl=a"` with an empty config — the stored
BaseURL is not the lowercase form of `A_B`. -/
theorem parse_baseurl_underscore_cex :
    tool.parse "MCP_SERVER_TOOL_K_BASEURL=A_B" = some ("k_baseurl=a", ⟨"", ""⟩)
      ∧ (tool.parse "MCP_SERVER_TOOL_K_BASEURL=A_B").map (fun p => p.2.BaseURL)
          ≠ some (goToLower "A_B") :=
  ⟨rfl, by decide⟩

/-- C10 (amended): `parse` lowercases the entire matched remainder of a
tool environment entry, including the field value after `=`: for every
entry `MCP_SERVER_TOOL_<KEY>_BASEURL=<url>` in which the key and URL
contain no newline, the URL contains no underscore, and the lowercased URL
contains no `=`, the returned provider key is the lowercase key and the
stored BaseURL is the lowercase form of the URL (e.g. a configured value
`http://Example/MCP` is stored as `http://example/mcp`). -/
theorem parse_baseurl_lowercases (K url : String)
    (hK2 : '\n' ∉ K.data)
    (hu1 : '_' ∉ url.data) (hu2 : '\n' ∉ url.data)
    (hu3 : '=' ∉ url.data.map lowerChar) :
    tool.parse ("MCP_SERVER_TOOL_" ++ K ++ "_BASEURL=" ++ url)
      = some (goToLower K, { Transport := "", BaseURL := goToLower url }) := by
  have hdata : ("MCP_SERVER_TOOL_" ++ K ++ "_BASEURL=" ++ url).data
      = tool.mcpLit ++ (K.data ++ '_' :: ("BASEURL=".data ++ url.data)) := by
    simp only [String.data_append, List.append_assoc]
    rfl
  have hn : '\n' ∉ K.data ++ '_' :: ("BASEURL=".data ++ url.data) := by
    simp only [List.mem_append, List.mem_cons]
    rintro (h | h | h | h)
    · exact hK2 h
    · exact absurd h (by decide)
    · exact absurd h (by decide)
    · exact hu2 h
  have hb : '_' ∉ "BASEURL=".data ++ url.data := by
    simp only [List.mem_append]
    rintro (h | h)
    · exact absurd h (by decide)
    · exact hu1 h
  have hfind : tool.reFind (("MCP_SERVER_TOOL_" ++ K ++ "_BASEURL=" ++ url).data)
      = some (K.data, "BASEURL=".data ++ url.data) := by
    rw [hdata]
    exact reFind_of_lit _ _ _ hn (splitLastUnd_append _ _ hb)
  unfold tool.parse
  rw [hfind]
  dsimp only
  have hlow : goToLower (String.mk ("BASEURL=".data ++ url.data))
      = String.mk ("baseurl".data ++ '=' :: url.data.map lowerChar) := by
    unfold goToLower
    rw [data_mk, List.map_append]
    rfl
  rw [hlow]
  have hsplit2 : goSplit (String.mk ("baseurl".data ++ '=' :: url.data.map lowerChar)) "="
      = ["baseurl", String.mk (url.data.map lowerChar)] := by
    unfold goSplit
    rw [show ("=").data = ['='] from rfl]
    dsimp only
    rw [data_mk]
    rw [splitAcc_eq_split _ _ _ (by decide)]
    rw [splitAcc_eq_none _ _ hu3]
    rfl
  rw [hsplit2]
  rfl

/-- C10 (witness): the amended statement on the entry
`MCP_SERVER_TOOL_MyKey_BASEURL=http://Example/MCP`. -/
theorem parse_baseurl_lowercases_witness :
    tool.parse ("MCP_SERVER_TOOL_" ++ "MyKey" ++ "_BASEURL=" ++ "http://Example/MCP")
      = some (goToLower "MyKey", { Transport := "", BaseURL := goToLower "http://Example/MCP" }) :=
  parse_baseurl_lowercases "MyKey" "http://Example/MCP"
    (by decide) (by decide) (by decide) (by decide)

/-! ## Claim C1: decimal-numeral lemmas -/

theorem digitVal_digitChar {d : Nat} (h : d < 10) : digitVal (digitChar d) = d := by
  interval_cases d <;> decide

theorem isDig_digitChar (d : Nat) : isDig (digitChar d) = true := by
  unfold digitChar
  split <;> decide

theorem natCharsAux_eq : ∀ (n : Nat) (fuel : Nat) (acc : List Char), n < fuel →
    natCharsAux fuel n acc = natChars n ++ acc := by
  intro n
  induction n using Nat.strong_induction_on with
  | _ n ih =>
    intro fuel acc hfuel
    match fuel, hfuel with
    | f + 1, hfuel =>
      by_cases h10 : n < 10
      · rw [show natCharsAux (f + 1) n acc = digitChar n :: acc from by
          simp [natCharsAux, h10]]
        rw [show natChars n = [digitChar n] from by simp [natChars, natCharsAux, h10]]
        rfl
      · have hlt : n / 10 < n := Nat.div_lt_self (by omega) (by omega)
        rw [show natCharsAux (f + 1) n acc
            = natCharsAux f (n / 10) (digitChar (n % 10) :: acc) from by
          simp [natCharsAux, h10]]
        rw [ih (n / 10) hlt f _ (by omega)]
        rw [show natChars n = natCharsAux n (n / 10) (digitChar (n % 10) :: []) from by
          simp only [natChars]
          simp [natCharsAux, h10]]
        rw [ih (n / 10) hlt n _ (by omega)]
        simp

theorem natChars_decompose {n : Nat} (h : ¬ n < 10) :
    natChars n = natChars (n / 10) ++ [digitChar (n % 10)] := by
  have hlt : n / 10 < n := Nat.div_lt_self (by omega) (by omega)
  rw [show natChars n = natCharsAux n (n / 10) (digitChar (n % 10) :: []) from by
    simp only [natChars]
    simp [natCharsAux, h]]
  rw [natCharsAux_eq (n / 10) n _ (by omega)]

theorem natFromDigits_natChars : ∀ n : Nat, natFromDigits (natChars n) = n := by
  intro n
  induction n using Nat.strong_induction_on with
  | _ n ih =>
    by_cases h10 : n < 10
    · rw [show natChars n = [digitChar n] from by simp [natChars, natCharsAux, h10]]
      simp [natFromDigits, digitVal_digitChar h10]
    · have hlt : n / 10 < n := Nat.div_lt_self (by omega) (by omega)
      rw [natChars_decompose h10]
      unfold natFromDigits
      rw [List.foldl_append]
      have := ih (n / 10) hlt
      unfold natFromDigits at this
      rw [this]
      simp only [List.foldl_cons, List.foldl_nil]
      rw [digitVal_digitChar (by omega)]
      omega

theorem natChars_all_digits : ∀ n, ∀ c ∈ natChars n, isDig c = true := by
  have haux : ∀ (fuel n : Nat) (acc : List Char), (∀ c ∈ acc, isDig c = true) →
      ∀ c ∈ natCharsAux fuel n acc, isDig c = true := by
    intro fuel
    induction fuel with
    | zero => intro n acc hacc; simpa [natCharsAux] using hacc
    | succ f ih =>
      intro n acc hacc c hc
      by_cases h10 : n < 10
      · simp only [natCharsAux, if_pos h10] at hc
        rcases List.mem_cons.mp hc with rfl | hc
        · exact isDig_digitChar n
        · exact hacc c hc
      · simp only [natCharsAux, if_neg h10] at hc
        refine ih (n / 10) (digitChar (n % 10) :: acc) ?_ c hc
        intro x hx
        rcases List.mem_cons.mp hx with rfl | hx
        · exact isDig_digitChar (n % 10)
        · exact hacc x hx
  intro n
  exact haux (n + 1) n [] (by intro c hc; simp at hc)

theorem natChars_ne_nil : ∀ n, natChars n ≠ [] := by
  intro n
  unfold natChars
  by_cases h10 : n < 10
  · simp [natCharsAux, h10]
  · simp only [natCharsAux, if_neg h10]
    rw [natCharsAux_eq (n / 10) n _ (by
      have := Nat.div_lt_self (show 0 < n by omega) (show 1 < 10 by omega)
      omega)]
    simp

theorem isDig_cases {c : Char} (h : isDig c = true) :
    c = '0' ∨ c = '1' ∨ c = '2' ∨ c = '3' ∨ c = '4' ∨
      c = '5' ∨ c = '6' ∨ c = '7' ∨ c = '8' ∨ c = '9' := by
  simp [isDig] at h
  tauto

theorem spanDigits_append : ∀ (l r : List Char), (∀ c ∈ l, isDig c = true) →
    (∀ c, r.head? = some c → isDig c = false) →
    spanDigits (l ++ r) = (l, r) := by
  intro l
  induction l with
  | nil =>
    intro r _ hr
    cases r with
    | nil => rfl
    | cons c cs =>
      simp only [List.nil_append, spanDigits]
      rw [if_neg (by rw [hr c rfl]; simp)]
  | cons c t ih =>
    intro r hl hr
    simp only [List.cons_append, spanDigits, List.append_eq]
    rw [if_pos (hl c (List.mem_cons_self c t))]
    rw [ih r (fun x hx => hl x (List.mem_cons_of_mem c hx)) hr]

theorem parseStrAux_cons_quote (acc cs : List Char) :
    parseStrAux acc ('"' :: cs) = some (acc.reverse, cs) := by
  cases cs with
  | nil => rfl
  | cons d ds => rfl

theorem parseStrAux_cons_plain (acc : List Char) (c : Char) (cs : List Char)
    (hq : ¬ c = '"') (hb : ¬ c = '\\') :
    parseStrAux acc (c :: cs) = parseStrAux (c :: acc) cs := by
  cases cs with
  | nil =>
    show (if c = '\\' then none
      else if c = '"' then some (acc.reverse, []) else parseStrAux (c :: acc) []) = _
    rw [if_neg hb, if_neg hq]
  | cons d ds =>
    show (if c = '\\' then parseStrAux (d :: acc) ds
      else if c = '"' then some (acc.reverse, d :: ds) else parseStrAux (c :: acc) (d :: ds)) = _
    rw [if_neg hb, if_neg hq]

theorem parseStrAux_rt : ∀ (s acc rest : List Char),
    parseStrAux acc (escChars s ++ '"' :: rest) = some (acc.reverse ++ s, rest) := by
  intro s
  induction s with
  | nil => intro acc rest; simp [escChars, parseStrAux_cons_quote]
  | cons c t ih =>
    intro acc rest
    by_cases hesc : c = '"' || c = '\\'
    · simp only [escChars, if_pos hesc, List.cons_append]
      rw [show parseStrAux acc ('\\' :: c :: (escChars t ++ '"' :: rest))
          = parseStrAux (c :: acc) (escChars t ++ '"' :: rest) from rfl]
      rw [ih (c :: acc) rest]
      simp
    · have hq : ¬ (c = '"') := by
        intro hc; rw [hc] at hesc; simp at hesc
      have hb : ¬ (c = '\\') := by
        intro hc; rw [hc] at hesc; simp at hesc
      simp only [escChars, if_neg hesc, List.cons_append]
      rw [parseStrAux_cons_plain acc c _ hq hb]
      rw [ih (c :: acc) rest]
      simp

theorem parseNum_not_dash (c : Char) (cs : List Char) (hc : ¬ c = '-') :
    parseNum (c :: cs) = (match spanDigits (c :: cs) with
      | ([], _) => none
      | (ds, r) => some (.num (natFromDigits ds), r)) := by
  rw [parseNum.eq_def]
  split
  · next heq => injection heq with h1 _; exact absurd h1 hc
  · rfl

theorem parseNum_rt (n : Int) (rest : List Char)
    (hrest : ∀ c, rest.head? = some c → isDig c = false) :
    parseNum (numChars n ++ rest) = some (.num n, rest) := by
  by_cases hneg : n < 0
  · rw [show numChars n = '-' :: natChars n.natAbs from by simp [numChars, hneg]]
    rw [List.cons_append]
    rw [show parseNum ('-' :: (natChars n.natAbs ++ rest))
        = (match spanDigits (natChars n.natAbs ++ rest) with
          | ([], _) => none
          | (ds, r) => some (.num (-(natFromDigits ds : Int)), r)) from rfl]
    rw [spanDigits_append _ _ (natChars_all_digits _) (fun c hc => hrest c hc)]
    cases hx : natChars n.natAbs with
    | nil => exact absurd hx (natChars_ne_nil _)
    | cons c cs =>
      dsimp only
      rw [← hx, natFromDigits_natChars]
      have : -((n.natAbs : Nat) : Int) = n := by omega
      rw [this]
  · rw [show numChars n = natChars n.toNat from by simp [numChars, hneg]]
    cases hx : natChars n.toNat with
    | nil => exact absurd hx (natChars_ne_nil _)
    | cons c cs =>
      have hdig : isDig c = true := by
        refine natChars_all_digits n.toNat c ?_
        rw [hx]; exact List.mem_cons_self c cs
      have hcd : ¬ c = '-' := by
        rcases isDig_cases hdig with rfl|rfl|rfl|rfl|rfl|rfl|rfl|rfl|rfl|rfl <;> decide
      rw [List.cons_append, parseNum_not_dash c _ hcd, ← List.cons_append, ← hx]
      rw [spanDigits_append _ _ (natChars_all_digits _) (fun c hc => hrest c hc)]
      rw [hx]
      dsimp only
      rw [← hx, natFromDigits_natChars]
      have : ((n.toNat : Nat) : Int) = n := by omega
      rw [this]

theorem parseV_digit (f : Nat) (c : Char) (cs : List Char) (hdig : isDig c = true) :
    parseV (f + 1) (c :: cs) = parseNum (c :: cs) := by
  rcases isDig_cases hdig with rfl|rfl|rfl|rfl|rfl|rfl|rfl|rfl|rfl|rfl <;> rfl

theorem parseV_dash (f : Nat) (cs : List Char) :
    parseV (f + 1) ('-' :: cs) = parseNum ('-' :: cs) := rfl

theorem head_facts : ∀ v : Json, ∃ c tl, jsonChars v = c :: tl
    ∧ isWs c = false ∧ ¬ c = ']' ∧ ¬ c = '\x7d' ∧ ¬ c = ',' := by
  intro v
  cases v with
  | null => exact ⟨'n', _, rfl, by decide, by decide, by decide, by decide⟩
  | bool b =>
    cases b with
    | true => exact ⟨'t', _, rfl, by decide, by decide, by decide, by decide⟩
    | false => exact ⟨'f', _, rfl, by decide, by decide, by decide, by decide⟩
  | str s => exact ⟨'"', _, rfl, by decide, by decide, by decide, by decide⟩
  | arr l => exact ⟨'[', _, rfl, by decide, by decide, by decide, by decide⟩
  | obj l => exact ⟨'\x7b', _, rfl, by decide, by decide, by decide, by decide⟩
  | num n =>
    rw [show jsonChars (Json.num n) = numChars n from rfl]
    by_cases hneg : n < 0
    · exact ⟨'-', natChars n.natAbs, by simp [numChars, hneg],
        by decide, by decide, by decide, by decide⟩
    · rw [show numChars n = natChars n.toNat from by simp [numChars, hneg]]
      cases hx : natChars n.toNat with
      | nil => exact absurd hx (natChars_ne_nil _)
      | cons c cs =>
        have hdig : isDig c = true := by
          refine natChars_all_digits n.toNat c ?_
          rw [hx]; exact List.mem_cons_self c cs
        refine ⟨c, cs, rfl, ?_, ?_, ?_, ?_⟩ <;>
          (rcases isDig_cases hdig with rfl|rfl|rfl|rfl|rfl|rfl|rfl|rfl|rfl|rfl <;> decide)

theorem getLast?_mem_of {α : Type} {l : List α} {a : α} (h : l.getLast? = some a) : a ∈ l := by
  have hne : l ≠ [] := by
    intro hl; rw [hl] at h; simp at h
  rw [List.getLast?_eq_getLast_of_ne_nil hne] at h
  have hmem := List.getLast_mem hne
  rwa [Option.some_inj.mp h] at hmem

theorem last_facts : ∀ v : Json, ∃ c, (jsonChars v).getLast? = some c ∧ isWs c = false := by
  intro v
  cases v with
  | null => exact ⟨'l', rfl, by decide⟩
  | bool b =>
    cases b with
    | true => exact ⟨'e', rfl, by decide⟩
    | false => exact ⟨'e', rfl, by decide⟩
  | str s =>
    refine ⟨'"', ?_, by decide⟩
    rw [show jsonChars (Json.str s) = ('"' :: escChars s.data) ++ ['"'] from by
      simp [jsonChars]]
    exact List.getLast?_concat _
  | arr l =>
    refine ⟨']', ?_, by decide⟩
    rw [show jsonChars (Json.arr l) = ('[' :: arrChars l) ++ [']'] from by
      simp [jsonChars]]
    exact List.getLast?_concat _
  | obj l =>
    refine ⟨'\x7d', ?_, by decide⟩
    rw [show jsonChars (Json.obj l) = ('\x7b' :: objChars l) ++ ['\x7d'] from by
      simp [jsonChars]]
    exact List.getLast?_concat _
  | num n =>
    rw [show jsonChars (Json.num n) = numChars n from rfl]
    have hlast : ∀ m : Nat, ∃ c, (natChars m).getLast? = some c ∧ isWs c = false := by
      intro m
      have hne : natChars m ≠ [] := natChars_ne_nil m
      obtain ⟨d, hd⟩ : ∃ d, (natChars m).getLast? = some d :=
        ⟨_, List.getLast?_eq_getLast_of_ne_nil hne⟩
      have hdig := natChars_all_digits m d (getLast?_mem_of hd)
      refine ⟨d, hd, ?_⟩
      rcases isDig_cases hdig with rfl|rfl|rfl|rfl|rfl|rfl|rfl|rfl|rfl|rfl <;> decide
    by_cases hneg : n < 0
    · rw [show numChars n = '-' :: natChars n.natAbs from by simp [numChars, hneg]]
      obtain ⟨c, hc, hw⟩ := hlast n.natAbs
      refine ⟨c, ?_, hw⟩
      rw [List.getLast?_cons]
      rw [show (natChars n.natAbs).getLast? = some c from hc]
      simp
    · rw [show numChars n = natChars n.toNat from by simp [numChars, hneg]]
      exact hlast n.toNat

theorem szJ_pos : ∀ v : Json, 1 ≤ szJ v := by
  intro v
  cases v <;> simp [szJ]

theorem szArr_mem : ∀ (l : List Json) (x : Json), x ∈ l → szJ x < 1 + szArr l := by
  intro l
  induction l with
  | nil => intro x hx; simp at hx
  | cons y ys ih =>
    intro x hx
    rcases List.mem_cons.mp hx with rfl | hx
    · simp only [szArr]; omega
    · have := ih x hx
      simp only [szArr]
      omega

theorem szObj_mem : ∀ (l : List (String × Json)) (p : String × Json), p ∈ l →
    szJ p.2 < 1 + szObj l := by
  intro l
  induction l with
  | nil => intro p hp; simp at hp
  | cons q qs ih =>
    intro p hp
    rcases List.mem_cons.mp hp with rfl | hp
    · simp only [szObj]; omega
    · have := ih p hp
      simp only [szObj]
      omega

theorem numChars_ne_nil (n : Int) : numChars n ≠ [] := by
  unfold numChars
  by_cases hneg : n < 0
  · simp [hneg]
  · simp [hneg, natChars_ne_nil]

theorem szArr_le : ∀ l : List Json, (∀ x ∈ l, szJ x ≤ (jsonChars x).length) →
    szArr l ≤ (arrChars l).length + 1 := by
  intro l
  induction l with
  | nil => intro _; simp [szArr, arrChars]
  | cons x xs ihl =>
    intro h
    have hx := h x (List.mem_cons_self x xs)
    cases xs with
    | nil =>
      simp only [szArr, arrChars]
      omega
    | cons y ys =>
      have hys := ihl (fun z hz => h z (List.mem_cons_of_mem x hz))
      simp only [szArr, arrChars, List.length_append, List.length_cons] at hys ⊢
      omega

theorem szObj_le : ∀ l : List (String × Json), (∀ p ∈ l, szJ p.2 ≤ (jsonChars p.2).length) →
    szObj l ≤ (objChars l).length + 1 := by
  intro l
  induction l with
  | nil => intro _; simp [szObj, objChars]
  | cons p ps ihl =>
    intro h
    have hp := h p (List.mem_cons_self p ps)
    cases ps with
    | nil =>
      cases p with
      | mk k v =>
        simp only [szObj, objChars, List.length_cons, List.length_append]
        simp only [] at hp
        omega
    | cons q qs =>
      have hqs := ihl (fun z hz => h z (List.mem_cons_of_mem p hz))
      cases p with
      | mk k v =>
        simp only [szObj, objChars, List.length_append, List.length_cons] at hqs ⊢
        simp only [] at hp
        omega

theorem sz_le_len : ∀ (N : Nat) (v : Json), szJ v ≤ N → szJ v ≤ (jsonChars v).length := by
  intro N
  induction N using Nat.strong_induction_on with
  | _ N ih =>
    intro v hv
    cases v with
    | null => simp [szJ, jsonChars]
    | bool b => cases b <;> simp [szJ, jsonChars]
    | str s => simp [szJ, jsonChars]
    | num n =>
      have := List.length_pos.mpr (numChars_ne_nil n)
      simp only [szJ, jsonChars]
      omega
    | arr l =>
      simp only [szJ] at hv
      have helem : ∀ x ∈ l, szJ x ≤ (jsonChars x).length := by
        intro x hx
        refine ih (szJ x) ?_ x (le_refl _)
        have h1 := szArr_mem l x hx
        omega
      have harr := szArr_le l helem
      simp only [szJ, jsonChars, List.length_cons, List.length_append]
      omega
    | obj l =>
      simp only [szJ] at hv
      have helem : ∀ p ∈ l, szJ p.2 ≤ (jsonChars p.2).length := by
        intro p hp
        refine ih (szJ p.2) ?_ p.2 (le_refl _)
        have h1 := szObj_mem l p hp
        omega
      have hobj := szObj_le l helem
      simp only [szJ, jsonChars, List.length_cons, List.length_append]
      omega

theorem parseMembers_step (f : Nat) (k' : List Char) (w : Json) (X cs'' r : List Char)
    (h1 : parseStrAux [] X = some (k', ':' :: cs''))
    (h2 : parseV f cs'' = some (w, r)) :
    parseMembers (f + 1) ('"' :: X)
      = if r.head? = some ',' then
          (parseMembers f r.tail).map fun q => ((String.mk k', w) :: q.1, q.2)
        else if r.head? = some '\x7d' then some ([(String.mk k', w)], r.tail)
        else none := by
  simp only [parseMembers, h1, h2]
  simp

theorem parseElems_step (f : Nat) (w : Json) (X r : List Char)
    (h2 : parseV f X = some (w, r)) :
    parseElems (f + 1) X
      = if r.head? = some ',' then
          (parseElems f r.tail).map fun q => (w :: q.1, q.2)
        else if r.head? = some ']' then some ([w], r.tail)
        else none := by
  simp only [parseElems, h2]

theorem parse_rt : ∀ fuel : Nat,
    (∀ (v : Json) (rest : List Char), szJ v ≤ fuel →
      (rest = [] ∨ rest.head? = some ',' ∨ rest.head? = some ']' ∨ rest.head? = some '\x7d') →
      parseV fuel (jsonChars v ++ rest) = some (v, rest))
    ∧ (∀ (l : List (String × Json)) (rest : List Char), szObj l ≤ fuel → l ≠ [] →
      parseMembers fuel (objChars l ++ '\x7d' :: rest) = some (l, rest))
    ∧ (∀ (l : List Json) (rest : List Char), szArr l ≤ fuel → l ≠ [] →
      parseElems fuel (arrChars l ++ ']' :: rest) = some (l, rest)) := by
  intro fuel
  induction fuel using Nat.strong_induction_on with
  | _ fuel ih =>
    refine ⟨?_, ?_, ?_⟩
    · -- values
      intro v rest hsz hdelim
      have hrest : ∀ c, rest.head? = some c → isDig c = false := by
        rcases hdelim with rfl | h | h | h <;>
          (intro c hc
           first
           | simp at hc
           | (rw [h] at hc
              simp only [Option.some.injEq] at hc
              subst hc
              decide))
      cases fuel with
      | zero => have := szJ_pos v; omega
      | succ f =>
        cases v with
        | null => rfl
        | bool b => cases b <;> rfl
        | str s =>
          rw [show jsonChars (Json.str s) ++ rest
              = '"' :: (escChars s.data ++ '"' :: rest) from by
            simp [jsonChars]]
          rw [show parseV (f + 1) ('"' :: (escChars s.data ++ '"' :: rest))
              = (parseStrAux [] (escChars s.data ++ '"' :: rest)).map
                  (fun p => (Json.str (String.mk p.1), p.2)) from rfl]
          rw [parseStrAux_rt s.data [] rest]
          rfl
        | num n =>
          rw [show jsonChars (Json.num n) = numChars n from rfl]
          by_cases hneg : n < 0
          · rw [show numChars n = '-' :: natChars n.natAbs from by simp [numChars, hneg],
              List.cons_append, parseV_dash, ← List.cons_append,
              show '-' :: natChars n.natAbs = numChars n from by simp [numChars, hneg]]
            exact parseNum_rt n rest hrest
          · rw [show numChars n = natChars n.toNat from by simp [numChars, hneg]]
            cases hx : natChars n.toNat with
            | nil => exact absurd hx (natChars_ne_nil _)
            | cons c cs =>
              have hdig : isDig c = true := by
                refine natChars_all_digits n.toNat c ?_
                rw [hx]; exact List.mem_cons_self c cs
              rw [List.cons_append, parseV_digit f c _ hdig, ← List.cons_append, ← hx,
                show natChars n.toNat = numChars n from by simp [numChars, hneg]]
              exact parseNum_rt n rest hrest
        | arr l =>
          cases l with
          | nil => rfl
          | cons x xs =>
            obtain ⟨c0, tl0, hx0, _, hnrb, _, _⟩ := head_facts x
            obtain ⟨t', ht'⟩ : ∃ t', arrChars (x :: xs) = c0 :: t' := by
              cases xs with
              | nil => exact ⟨tl0, by simp [arrChars, hx0]⟩
              | cons y ys => exact ⟨tl0 ++ ',' :: arrChars (y :: ys), by simp [arrChars, hx0]⟩
            rw [show jsonChars (Json.arr (x :: xs)) ++ rest
                = '[' :: (arrChars (x :: xs) ++ ']' :: rest) from by simp [jsonChars]]
            rw [show parseV (f + 1) ('[' :: (arrChars (x :: xs) ++ ']' :: rest))
                = (if (arrChars (x :: xs) ++ ']' :: rest).head? = some ']' then
                    some (Json.arr [], (arrChars (x :: xs) ++ ']' :: rest).tail)
                  else (parseElems f (arrChars (x :: xs) ++ ']' :: rest)).map
                    (fun p => (Json.arr p.1, p.2))) from rfl]
            rw [if_neg (by
              rw [ht']
              simp only [List.cons_append, List.head?_cons, Option.some.injEq]
              exact hnrb)]
            have hE := (ih f (by omega)).2.2 (x :: xs) rest (by
              simp only [szJ] at hsz
              omega) (by simp)
            rw [hE]
            rfl
        | obj l =>
          cases l with
          | nil => rfl
          | cons p ps =>
            obtain ⟨t', ht'⟩ : ∃ t', objChars (p :: ps) = '"' :: t' := by
              cases ps with
              | nil =>
                cases p with
                | mk k v => exact ⟨escChars k.data ++ '"' :: ':' :: jsonChars v, by
                    simp [objChars]⟩
              | cons q qs =>
                cases p with
                | mk k v => exact ⟨(escChars k.data ++ '"' :: ':' :: jsonChars v)
                      ++ ',' :: objChars (q :: qs), by simp [objChars]⟩
            rw [show jsonChars (Json.obj (p :: ps)) ++ rest
                = '\x7b' :: (objChars (p :: ps) ++ '\x7d' :: rest) from by simp [jsonChars]]
            rw [show parseV (f + 1) ('\x7b' :: (objChars (p :: ps) ++ '\x7d' :: rest))
                = (if (objChars (p :: ps) ++ '\x7d' :: rest).head? = some '\x7d' then
                    some (Json.obj [], (objChars (p :: ps) ++ '\x7d' :: rest).tail)
                  else (parseMembers f (objChars (p :: ps) ++ '\x7d' :: rest)).map
                    (fun q => (Json.obj q.1, q.2))) from rfl]
            rw [if_neg (by
              rw [ht']
              simp only [List.cons_append, List.head?_cons, Option.some.injEq]
              decide)]
            have hM := (ih f (by omega)).2.1 (p :: ps) rest (by
              simp only [szJ] at hsz
              omega) (by simp)
            rw [hM]
            rfl
    · -- members
      intro l rest hsz hne
      cases l with
      | nil => exact absurd rfl hne
      | cons p tl =>
        cases p with
        | mk k v =>
          cases fuel with
          | zero =>
            exfalso
            have := szJ_pos v
            simp only [szObj] at hsz
            omega
          | succ f =>
            cases tl with
            | nil =>
              rw [show objChars [(k, v)] ++ '\x7d' :: rest
                  = '"' :: (escChars k.data ++ '"' :: (':' :: (jsonChars v ++ '\x7d' :: rest)))
                  from by simp [objChars]]
              have hV := (ih f (by omega)).1 v ('\x7d' :: rest) (by
                simp only [szObj] at hsz
                omega) (by simp)
              rw [parseMembers_step f k.data v _ _ _
                (by
                  rw [parseStrAux_rt k.data [] (':' :: (jsonChars v ++ '\x7d' :: rest))]
                  simp) hV]
              simp only [List.head?_cons, Option.some.injEq]
              simp only [if_true, List.tail_cons]
              rfl
            | cons q qs =>
              rw [show objChars ((k, v) :: q :: qs) ++ '\x7d' :: rest
                  = '"' :: (escChars k.data ++ '"' ::
                      (':' :: (jsonChars v ++ ',' :: (objChars (q :: qs) ++ '\x7d' :: rest))))
                  from by simp [objChars]]
              have hV := (ih f (by omega)).1 v
                (',' :: (objChars (q :: qs) ++ '\x7d' :: rest)) (by
                  simp only [szObj] at hsz
                  omega) (by simp)
              rw [parseMembers_step f k.data v _ _ _
                (by
                  rw [parseStrAux_rt k.data []
                    (':' :: (jsonChars v ++ ',' :: (objChars (q :: qs) ++ '\x7d' :: rest)))]
                  simp) hV]
              simp only [List.head?_cons, Option.some.injEq]
              simp only [if_true, List.tail_cons]
              have hM := (ih f (by omega)).2.1 (q :: qs) rest (by
                simp only [szObj] at hsz ⊢
                have := szJ_pos v
                omega) (by simp)
              rw [hM]
              rfl
    · -- elements
      intro l rest hsz hne
      cases l with
      | nil => exact absurd rfl hne
      | cons x xs =>
        cases fuel with
        | zero =>
          exfalso
          have := szJ_pos x
          simp only [szArr] at hsz
          omega
        | succ f =>
          cases xs with
          | nil =>
            rw [show arrChars [x] ++ ']' :: rest = jsonChars x ++ ']' :: rest from by
              simp [arrChars]]
            have hV := (ih f (by omega)).1 x (']' :: rest) (by
              simp only [szArr] at hsz
              omega) (by simp)
            rw [parseElems_step f x _ _ hV]
            simp only [List.head?_cons, Option.some.injEq]
            rw [if_neg (by decide)]
            simp
          | cons y ys =>
            rw [show arrChars (x :: y :: ys) ++ ']' :: rest
                = jsonChars x ++ ',' :: (arrChars (y :: ys) ++ ']' :: rest) from by
              simp [arrChars]]
            have hV := (ih f (by omega)).1 x
              (',' :: (arrChars (y :: ys) ++ ']' :: rest)) (by
                simp only [szArr] at hsz
                omega) (by simp)
            rw [parseElems_step f x _ _ hV]
            simp only [List.head?_cons, Option.some.injEq]
            simp only [if_true, List.tail_cons]
            have hE := (ih f (by omega)).2.2 (y :: ys) rest (by
              simp only [szArr] at hsz ⊢
              have := szJ_pos x
              omega) (by simp)
            rw [hE]
            rfl

/-! ## Claim C1: the resource codec round trip -/

theorem trim_wrap (D : List Char) (c0 cN : Char)
    (h0 : D.head? = some c0) (hw0 : isWs c0 = false)
    (hN : D.getLast? = some cN) (hwN : isWs cN = false) :
    trimChars ('\n' :: (D ++ ['\n'])) = D := by
  have h1 : (D ++ ['\n']).dropWhile isWs = D ++ ['\n'] := by
    apply dropWhile_of_head_false
    intro c hc
    cases D with
    | nil => simp at h0
    | cons a t =>
      simp only [List.cons_append, List.head?_cons, Option.some.injEq] at h0 hc
      rw [← hc, h0]
      exact hw0
  have h2 : D.reverse.dropWhile isWs = D.reverse := by
    apply dropWhile_of_head_false
    intro c hc
    rw [List.head?_reverse, hN] at hc
    simp only [Option.some.injEq] at hc
    rw [← hc]
    exact hwN
  unfold trimChars trimByChars
  rw [show ('\n' :: (D ++ ['\n'])).dropWhile isWs = (D ++ ['\n']).dropWhile isWs from rfl,
    h1, List.reverse_append,
    show ((['\n'] : List Char).reverse ++ D.reverse) = '\n' :: D.reverse from rfl]
  rw [show ('\n' :: D.reverse).dropWhile isWs = D.reverse.dropWhile isWs from rfl,
    h2, List.reverse_reverse]

theorem yamlToJSON_of_trim (s : String) (c : Char) (tl : List Char) (v : Json)
    (ht : trimChars s.data = c :: tl)
    (hp : parseV ((c :: tl).length + 1) (c :: tl) = some (v, [])) :
    yamlToJSON s = .ok v := by
  unfold yamlToJSON
  rw [ht]
  dsimp only
  rw [hp]

theorem yamlToJSON_fragment (V : Json) :
    yamlToJSON (String.mk ('\n' :: (jsonChars V ++ ['\n']))) = .ok V := by
  obtain ⟨c, tl, hD, hw, _, _, _⟩ := head_facts V
  obtain ⟨cN, hlast, hwN⟩ := last_facts V
  have htrim : trimChars ('\n' :: (jsonChars V ++ ['\n'])) = c :: tl := by
    rw [trim_wrap _ c cN (by rw [hD]; rfl) hw hlast hwN]
    exact hD
  have hsz : szJ V ≤ (jsonChars V).length + 1 := by
    have h := sz_le_len (szJ V) V (le_refl _)
    omega
  have hp : parseV ((jsonChars V).length + 1) (jsonChars V) = some (V, []) := by
    have h := (parse_rt ((jsonChars V).length + 1)).1 V [] hsz (Or.inl rfl)
    simpa using h
  refine yamlToJSON_of_trim _ c tl V (by rw [data_mk]; exact htrim) ?_
  rw [← hD]
  exact hp

theorem isPre3_append : ∀ (f : List Char), f.getLast? = some '\n' →
    ∀ r : List Char, isPre sepChars (f ++ r) = isPre sepChars f := by
  intro f hlast r
  cases f with
  | nil => simp at hlast
  | cons a t =>
    cases t with
    | nil =>
      have ha : a = '\n' := by simpa using hlast
      subst ha
      simp [sepChars, isPre]
    | cons b u =>
      cases u with
      | nil =>
        have hb : b = '\n' := by simpa using hlast
        subst hb
        simp [sepChars, isPre]
      | cons c w =>
        simp [sepChars, isPre, List.cons_append]

theorem isPre3_concat_newline : ∀ l : List Char,
    isPre sepChars (l ++ ['\n']) = isPre sepChars l := by
  intro l
  cases l with
  | nil => decide
  | cons a t =>
    cases t with
    | nil => simp [sepChars, isPre]
    | cons b u =>
      cases u with
      | nil => simp [sepChars, isPre]
      | cons c w => simp [sepChars, isPre, List.cons_append]

theorem containsSub3_concat_newline : ∀ l : List Char,
    containsSub sepChars (l ++ ['\n']) = containsSub sepChars l := by
  intro l
  induction l with
  | nil => decide
  | cons a t ih =>
    have e : containsSub sepChars ((a :: t) ++ ['\n'])
        = (isPre sepChars ((a :: t) ++ ['\n']) || containsSub sepChars (t ++ ['\n'])) := rfl
    rw [e, isPre3_concat_newline (a :: t), ih]
    rfl

theorem splitAcc_frag : ∀ (f : List Char), containsSub sepChars f = false →
    f.getLast? = some '\n' →
    ∀ (acc r : List Char),
      splitAcc '-' ['-', '-'] 0 acc (f ++ r) = splitAcc '-' ['-', '-'] 0 (f.reverse ++ acc) r := by
  intro f
  induction f with
  | nil => intro _ h; simp at h
  | cons a t ih =>
    intro hcs hlast acc r
    have hsplit : isPre sepChars (a :: t) = false ∧ containsSub sepChars t = false := by
      have e : containsSub sepChars (a :: t)
          = (isPre sepChars (a :: t) || containsSub sepChars t) := rfl
      rw [e] at hcs
      exact Bool.or_eq_false_iff.mp hcs
    have hpre : isPre ('-' :: ['-', '-']) (a :: (t ++ r)) = false := by
      have e2 : (a :: (t ++ r)) = (a :: t) ++ r := rfl
      rw [show ('-' :: ['-', '-'] : List Char) = sepChars from rfl, e2,
        isPre3_append (a :: t) hlast r]
      exact hsplit.1
    simp only [List.cons_append, splitAcc, List.append_eq, hpre, Bool.false_eq_true, if_false]
    cases t with
    | nil =>
      have ha : a = '\n' := by simpa using hlast
      subst ha
      simp
    | cons b u =>
      rw [ih hsplit.2 (by simpa using hlast) (a :: acc) r]
      simp

theorem splitAcc_encodeStream : ∀ (m : List (String × Resource)) (acc : List Char),
    (∀ p ∈ m, containsSub sepChars
        (jsonChars (setPath (.obj p.2) annPath (.str p.1))) = false) →
    splitAcc '-' ['-', '-'] 0 acc (encodeStream m) = acc.reverse :: fragsOf m := by
  intro m
  induction m with
  | nil => intro acc _; simp [encodeStream, splitAcc, fragsOf]
  | cons p rest ih =>
    intro acc hsafe
    obtain ⟨name, r⟩ := p
    set D := jsonChars (setPath (Json.obj r) annPath (Json.str name)) with hDdef
    have hD := hsafe (name, r) (List.mem_cons_self _ _)
    have hfrag : containsSub sepChars ('\n' :: (D ++ ['\n'])) = false := by
      have e : containsSub sepChars ('\n' :: (D ++ ['\n']))
          = (isPre sepChars ('\n' :: (D ++ ['\n'])) || containsSub sepChars (D ++ ['\n'])) := rfl
      rw [e, containsSub3_concat_newline, hD]
      simp [sepChars, isPre]
    have hfl : ('\n' :: (D ++ ['\n'])).getLast? = some '\n' := by
      rw [show '\n' :: (D ++ ['\n']) = ('\n' :: D) ++ ['\n'] from by simp]
      exact List.getLast?_concat _
    have step1 : splitAcc '-' ['-', '-'] 0 acc
        ('-' :: '-' :: '-' :: '\n' :: (D ++ '\n' :: encodeStream rest))
      = acc.reverse :: splitAcc '-' ['-', '-'] 0 [] ('\n' :: (D ++ '\n' :: encodeStream rest)) :=
      rfl
    have eappend : '\n' :: (D ++ '\n' :: encodeStream rest)
        = ('\n' :: (D ++ ['\n'])) ++ encodeStream rest := by
      simp
    rw [show encodeStream ((name, r) :: rest)
        = '-' :: '-' :: '-' :: '\n' :: (D ++ '\n' :: encodeStream rest) from rfl]
    rw [step1, eappend, splitAcc_frag _ hfrag hfl [] (encodeStream rest)]
    rw [ih _ (fun q hq => hsafe q (List.mem_cons_of_mem _ hq))]
    simp [fragsOf, ← hDdef]

theorem goSplit_encodeStream (m : List (String × Resource))
    (hsafe : ∀ p ∈ m, containsSub sepChars
        (jsonChars (setPath (.obj p.2) annPath (.str p.1))) = false) :
    goSplit (String.mk (encodeStream m)) "---" = "" :: (fragsOf m).map String.mk := by
  unfold goSplit
  rw [show ("---" : String).data = ['-', '-', '-'] from rfl]
  rw [show (String.mk (encodeStream m)).data = encodeStream m from rfl]
  dsimp only
  rw [splitAcc_encodeStream m [] hsafe]
  rfl

theorem lookupField_setFieldGo (upd : Json → Json) (k : String) :
    ∀ fs : List (String × Json),
      lookupField (setFieldGo upd k fs) k = some (upd ((lookupField fs k).getD .null)) := by
  intro fs
  induction fs with
  | nil => simp [setFieldGo, lookupField]
  | cons p tl ih =>
    obtain ⟨k2, v2⟩ := p
    by_cases hk : k2 = k
    · subst hk
      simp [setFieldGo, lookupField]
    · simp [setFieldGo, lookupField, hk, ih]

theorem getPath_setPathF : ∀ (p : List String) (v j : Json),
    getPath (setPathF p v j) p = some v := by
  intro p
  induction p with
  | nil => intro v j; rfl
  | cons k rest ih =>
    intro v j
    cases j with
    | obj fields =>
      simp only [setPathF, getPath, lookupField_setFieldGo]
      exact ih v _
    | null =>
      simp only [setPathF, getPath, lookupField, if_pos]
      exact ih v _
    | bool b =>
      simp only [setPathF, getPath, lookupField, if_pos]
      exact ih v _
    | num n =>
      simp only [setPathF, getPath, lookupField, if_pos]
      exact ih v _
    | str s =>
      simp only [setPathF, getPath, lookupField, if_pos]
      exact ih v _
    | arr l =>
      simp only [setPathF, getPath, lookupField, if_pos]
      exact ih v _

theorem setPath_annotate (r : Resource) (nm : String) :
    setPath (.obj r) annPath (.str nm) = .obj (annotate r nm) := rfl

theorem gjsonString_setPath (r : Resource) (nm : String) :
    gjsonString (setPath (.obj r) annPath (.str nm)) annPath = nm := by
  unfold gjsonString setPath
  rw [getPath_setPathF]

theorem lookupField_append_none {α : Type} (a b : List (String × α)) (k : String)
    (ha : lookupField a k = none) : lookupField (a ++ b) k = lookupField b k := by
  induction a with
  | nil => rfl
  | cons p tl ih =>
    obtain ⟨k2, v2⟩ := p
    by_cases hk : k2 = k
    · simp [lookupField, hk] at ha
    · simp only [lookupField, if_neg hk] at ha
      rw [show ((k2, v2) :: tl) ++ b = (k2, v2) :: (tl ++ b) from rfl]
      simp only [lookupField, if_neg hk]
      exact ih ha

theorem fromYAMLGo_frags : ∀ (m : List (String × Resource)) (out : List (String × Resource)),
    (∀ p ∈ m, p.1 ≠ "") →
    ((m.map Prod.fst).Nodup) →
    (∀ p ∈ m, lookupField out p.1 = none) →
    fromYAMLGo ((fragsOf m).map String.mk) out = .ok (out ++ annotated m) := by
  intro m
  induction m with
  | nil => intro out _ _ _; simp [fragsOf, annotated, fromYAMLGo]
  | cons p rest ih =>
    intro out hne hnd hfresh
    obtain ⟨name, r⟩ := p
    set D := jsonChars (setPath (Json.obj r) annPath (Json.str name)) with hDdef
    have hdoc : (fragsOf ((name, r) :: rest)).map String.mk
        = String.mk ('\n' :: (D ++ ['\n'])) :: (fragsOf rest).map String.mk := by
      simp [fragsOf, ← hDdef]
    rw [hdoc]
    have hne0 : String.mk ('\n' :: (D ++ ['\n'])) ≠ "" := by
      intro h
      have h2 := congrArg String.data h
      simp at h2
    have hyaml : yamlToJSON (String.mk ('\n' :: (D ++ ['\n'])))
        = .ok (setPath (Json.obj r) annPath (Json.str name)) := by
      rw [hDdef]
      exact yamlToJSON_fragment _
    have hpj : protojsonUnmarshal (setPath (Json.obj r) annPath (Json.str name))
        = .ok (annotate r name) := by
      rw [setPath_annotate]
      rfl
    have hfname : name ≠ "" := hne (name, r) (List.mem_cons_self _ _)
    have hout : lookupField out name = none := hfresh (name, r) (List.mem_cons_self _ _)
    simp only [fromYAMLGo, if_neg hne0, hyaml, hpj, gjsonString_setPath, if_neg hfname,
      hout, Option.isSome_none, Bool.false_eq_true, if_false]
    have hnd2 := hnd
    simp only [List.map_cons, List.nodup_cons] at hnd2
    have hstep : ∀ q ∈ rest, lookupField (out ++ [(name, annotate r name)]) q.1 = none := by
      intro q hq
      rw [lookupField_append_none _ _ _ (hfresh q (List.mem_cons_of_mem _ hq))]
      have hmem : q.1 ∈ rest.map Prod.fst := List.mem_map_of_mem Prod.fst hq
      have hneq : name ≠ q.1 := fun h => hnd2.1 (by rw [h]; exact hmem)
      simp [lookupField, hneq]
    rw [ih _ (fun q hq => hne q (List.mem_cons_of_mem _ hq)) hnd2.2 hstep]
    simp [annotated]

/-- C1 (counterexample): the round trip fails for a mapping with non-empty,
distinct names whose resource content contains the document separator.  For
`m = [("a", obj with field "x" = "---")]` the serialised stream is split in
the middle of the JSON document, so decoding errors with "cannot parse YAML"
instead of returning the annotated mapping. -/
theorem composedRoundTrip_cex :
    (ComposedToYAML c1CexM).bind ComposedFromYAML = .error "cannot parse YAML" ∧
      (ComposedToYAML c1CexM).bind ComposedFromYAML ≠ .ok (annotated c1CexM) := by
  constructor
  · rfl
  · intro h
    rw [show (ComposedToYAML c1CexM).bind ComposedFromYAML
        = (.error "cannot parse YAML" : Except String (List (String × Resource))) from rfl] at h
    exact Except.noConfusion h

/-- C1 (amended): round trip of the resource codec.  For every mapping `m`
from non-empty, pairwise-distinct names to resources whose annotated
serialised documents do not themselves contain the separator `---`,
decoding the encoded multi-document stream succeeds and yields `m` with
each resource carrying the `upbound.io/name` identity annotation set to its
key. -/
theorem composed_roundtrip (m : List (String × Resource))
    (hne : ∀ p ∈ m, p.1 ≠ "")
    (hnd : (m.map Prod.fst).Nodup)
    (hsafe : ∀ p ∈ m, containsSub sepChars
        (jsonChars (setPath (.obj p.2) annPath (.str p.1))) = false) :
    (ComposedToYAML m).bind ComposedFromYAML = .ok (annotated m) := by
  rw [show (ComposedToYAML m).bind ComposedFromYAML
      = ComposedFromYAML (String.mk (encodeStream m)) from rfl]
  unfold ComposedFromYAML
  rw [goSplit_encodeStream m hsafe]
  rw [show fromYAMLGo ("" :: (fragsOf m).map String.mk) []
      = fromYAMLGo ((fragsOf m).map String.mk) [] from rfl]
  rw [fromYAMLGo_frags m [] hne hnd (fun p _ => rfl)]
  rfl

/-- C1 (witness): the round trip holds on the concrete two-entry mapping
`c1WitM`. -/
theorem composed_roundtrip_witness :
    (ComposedToYAML c1WitM).bind ComposedFromYAML = .ok (annotated c1WitM) :=
  composed_roundtrip c1WitM (by decide) (by decide) (by decide)
